import Mathlib

/-!
Verification of the voter tallying core (`src/app.rs`).

The Rust source delegates ballot-grammar parsing and the Plurality/Schulze
tallies to the external `tallystick` crate, which is not part of this
repository; those parts are modelled from the specification (marked
`Modelled from the spec:`).  Everything else is translated directly from
`src/app.rs`.

Rust's `HashSet`/`HashMap` iteration order is unspecified.  Every place the
program iterates such a container is modelled by an explicit reordering
function `hs : List String → List String` applied to the canonical list of
distinct keys; hypotheses of the form `∀ l, (hs l).Perm l` state that the
iteration visits exactly the stored keys, in some order.

Machine arithmetic: vote weights are `u32` in the source; `u32` additions
(consolidation, the lottery's running totals, the pairwise Schulze sums)
are modelled with an explicit `% 2^32` since release builds wrap on
overflow.  The plurality tally accumulates in `u64`; on the `wasm32` target
the total weight of any ballot text is strictly below `2^64`, so that sum
is modelled as an ordinary `Nat`.
-/

namespace Voter

/-- Weight wrap-around modulus of the `u32` weight arithmetic. -/
def U32 : Nat := 2 ^ 32

/-- type RankedVote = Vec<(String, u32)> — (candidate, tier) pairs. -/
abbrev RankedVote := List (String × Nat)

/-- type WeightedRankedVote = Vec<(RankedVote, u32)>. -/
abbrev WeightedRankedVote := List (RankedVote × Nat)

/-- type WeightedUnrankedVote = Vec<(String, u32)>. -/
abbrev WeightedUnrankedVote := List (String × Nat)

/-- type Ranking = Vec<(String, usize)>. -/
abbrev Ranking := List (String × Nat)

/-- The error kinds surfaced by `app.rs` (each an `anyhow` message in the
source) together with the `strum` method-resolution failure. -/
inductive Err
  | parseErr
  | dupErr
  | ambiguousErr
  | invalidVoteErr
  | unknownMethodErr
deriving DecidableEq

deriving instance DecidableEq for Except

/-- enum Method { Plurality, SchulzeWinning, WeightedRandom }. -/
inductive Method
  | plurality
  | schulzeWinning
  | weightedRandom
deriving DecidableEq

/-- Method::from_str with strum's title-case serialization: exactly the
three canonical strings resolve. -/
def methodFromStr (s : String) : Except Err Method :=
  if s = "Plurality" then .ok .plurality
  else if s = "Schulze Winning" then .ok .schulzeWinning
  else if s = "Weighted Random" then .ok .weightedRandom
  else .error .unknownMethodErr

/-- Whitespace recognised when trimming candidate names and weights
(the line splitter leaves a trailing carriage return to be trimmed). -/
def isWsChar (c : Char) : Bool := c == ' ' || c == '\t' || c == '\x0d'

/-- Trim leading and trailing whitespace from a run of characters. -/
def trimChars (cs : List Char) : List Char :=
  ((cs.dropWhile isWsChar).reverse.dropWhile isWsChar).reverse

/-- Split a character stream into lines at newline characters. -/
def splitLines : List Char → List (List Char)
  | [] => [[]]
  | c :: cs =>
    if c = '\n' then [] :: splitLines cs
    else
      match splitLines cs with
      | [] => [[c]]
      | l :: ls => (c :: l) :: ls

/-- The lines of a raw ballot text. -/
def linesOf (raw : String) : List (List Char) := splitLines raw.data

/-- Numeric value of a decimal digit character, if it is one. -/
def parseNatAux : List Char → Nat → Option Nat
  | [], acc => some acc
  | c :: cs, acc =>
    if 48 ≤ c.toNat && c.toNat ≤ 57 then parseNatAux cs (acc * 10 + (c.toNat - 48))
    else none

/-- Parse a non-empty all-digit character run as a natural number. -/
def parseNatChars (cs : List Char) : Option Nat :=
  if cs.isEmpty then none else parseNatAux cs 0

/-- Tokens of the ballot-line grammar: the three operators and maximal
runs of other characters. -/
inductive Tok
  | gtTok
  | eqTok
  | starTok
  | textTok (cs : List Char)
deriving DecidableEq

/-- Emit the pending text run (if non-empty) as a token. -/
def pushRun (run : List Char) : List Tok :=
  if run.isEmpty then [] else [Tok.textTok run.reverse]

/-- Tokenizer for one ballot line: `*`, `>`, `=` are operators, any other
maximal character run is candidate (or weight) text. -/
def tokenizeAux : List Char → List Char → List Tok
  | [], run => pushRun run
  | c :: cs, run =>
    if c = '>' then pushRun run ++ Tok.gtTok :: tokenizeAux cs []
    else if c = '=' then pushRun run ++ Tok.eqTok :: tokenizeAux cs []
    else if c = '*' then pushRun run ++ Tok.starTok :: tokenizeAux cs []
    else tokenizeAux cs (c :: run)

/-- Tokenize a whole line. -/
def tokenize (cs : List Char) : List Tok := tokenizeAux cs []

/-- A candidate name: its text trimmed of whitespace, which must be
non-empty. -/
def candName (cs : List Char) : Option String :=
  let t := trimChars cs
  if t.isEmpty then none else some (String.mk t)

/-- Parse the `(('>' | '=') candidate)*` tail of a ranking, `>` moving to
the next tier and `=` keeping the current one. -/
def parseRest : List Tok → Nat → Option RankedVote
  | [], _ => some []
  | Tok.gtTok :: Tok.textTok s :: rest, tier =>
    match candName s, parseRest rest (tier + 1) with
    | some c, some r => some ((c, tier + 1) :: r)
    | _, _ => none
  | Tok.eqTok :: Tok.textTok s :: rest, tier =>
    match candName s, parseRest rest tier with
    | some c, some r => some ((c, tier) :: r)
    | _, _ => none
  | _, _ => none

/-- Parse a full ranking `candidate (('>' | '=') candidate)*`; the first
candidate sits at tier 0. -/
def parseRanking : List Tok → Option RankedVote
  | Tok.textTok s :: rest =>
    match candName s, parseRest rest 0 with
    | some c, some r => some ((c, 0) :: r)
    | _, _ => none
  | _ => none

/-- Split a token list at the first `*`, keeping what follows. -/
def splitStar : List Tok → List Tok × Option (List Tok)
  | [] => ([], none)
  | Tok.starTok :: rest => ([], some rest)
  | t :: rest =>
    let p := splitStar rest
    (t :: p.1, p.2)

/-- Parse a trailing weight: a single text token holding a positive
integer that fits the `u32` weight type. -/
def parseWeight : List Tok → Option Nat
  | [Tok.textTok s] =>
    match parseNatChars (trimChars s) with
    | some n => if 1 ≤ n ∧ n < U32 then some n else none
    | none => none
  | _ => none

/-- Modelled from the spec: `tallystick::util::read_votes` on one line of
the grammar `candidate (('>' | '=') candidate)* ('*' positive-integer)?`;
a blank line yields the empty ranked vote with weight 1, and a malformed
line (stray operator, empty candidate, bad weight) fails. -/
def parseLine (line : List Char) : Option (RankedVote × Nat) :=
  if (trimChars line).isEmpty then some ([], 1)
  else
    match splitStar (tokenize line) with
    | (pre, none) => (parseRanking pre).map fun r => (r, 1)
    | (pre, some post) =>
      match parseRanking pre, parseWeight post with
      | some r, some w => some (r, w)
      | _, _ => none

/-- Parse every line, failing if any line is malformed. -/
def parseAll : List (List Char) → Option WeightedRankedVote
  | [] => some []
  | l :: ls =>
    match parseLine l, parseAll ls with
    | some v, some vs => some (v :: vs)
    | _, _ => none

/-- Does a candidate name repeat inside one ranked vote?  The source
compares the size of the `HashSet` of names with the number of entries. -/
def hasDup (v : RankedVote) : Bool :=
  decide ((v.map Prod.fst).dedup.length < v.length)

/-- fn parse_votes: read all votes via the ballot grammar (any malformed
line is the stray-character error), then reject any ranking that uses a
candidate twice. -/
def parse_votes (raw : String) : Except Err WeightedRankedVote :=
  match parseAll (linesOf raw) with
  | none => .error .parseErr
  | some vs =>
    if vs.any (fun x => hasDup x.1) then .error .dupErr else .ok vs

/-- The tier-0 candidate names of one ranked vote. -/
def firstChoices (v : RankedVote) : List String :=
  (v.filter fun y => y.2 == 0).map Prod.fst

/-- fn as_unranked_votes: fails when any vote has more than one tier-0
candidate; otherwise keeps each non-empty vote as (first tier-0 name,
defaulting to the empty string, paired with the vote's weight). -/
def as_unranked_votes (votes : WeightedRankedVote) : Except Err WeightedUnrankedVote :=
  if votes.any (fun x => decide (1 < (x.1.filter fun y => y.2 == 0).length)) then
    .error .ambiguousErr
  else
    .ok ((votes.filter fun x => !x.1.isEmpty).map fun x =>
      ((firstChoices x.1).headD "", x.2))

/-- The distinct candidates referenced anywhere in the votes, in a
canonical order (the source collects them into a `HashSet`). -/
def allCandidates (votes : WeightedRankedVote) : List String :=
  ((votes.map fun x => x.1.map Prod.fst).flatten).dedup

/-- fn candidates_from_votes: the `HashSet` of candidates iterated into a
`Vec` in unspecified order, modelled by the reordering `hs`. -/
def candidates_from_votes (votes : WeightedRankedVote)
    (hs : List String → List String) : List String :=
  hs (allCandidates votes)

/-- Total `u32` weight a candidate carries in an unranked vote list, with
wrap-around. -/
def totalWeightMod (votes : WeightedUnrankedVote) (c : String) : Nat :=
  ((votes.filter fun x => x.1 == c).map Prod.snd).sum % U32

/-- fn consolidate_unranked_votes: sum the weight per candidate in a
`HashMap` and iterate it out in unspecified order, modelled by `hs`. -/
def consolidate_unranked_votes (votes : WeightedUnrankedVote)
    (hs : List String → List String) : WeightedUnrankedVote :=
  (hs ((votes.map Prod.fst).dedup)).map fun c => (c, totalWeightMod votes c)

/-- Total `u64` plurality weight of a candidate (no wrap: on the `wasm32`
target the total weight of a ballot text is below `2^64`). -/
def pluralityCount (votes : WeightedUnrankedVote) (c : String) : Nat :=
  ((votes.filter fun x => x.1 == c).map Prod.snd).sum

/-- Modelled from the spec: the `tallystick` plurality ranking over the
candidates its internal counted-candidates container holds (`keys`,
iterated in unspecified order).  Candidates with zero weight are excluded;
the rest are sorted by descending total weight, a candidate's rank being
the number of candidates with strictly greater weight (competition
ranking); candidates of equal weight stay in container order. -/
def pluralityCore (cnt : String → Nat) (keys : List String) : Ranking :=
  let present := keys.filter fun c => decide (0 < cnt c)
  (present.insertionSort fun a b => cnt b ≤ cnt a).map
    fun c => (c, present.countP fun a => decide (cnt c < cnt a))

/-- fn plurality: tally the unranked votes with `DefaultPluralityTally`
(whose capacity argument is the candidate count) and list the ranked
winners.  The tally's internal container order is modelled by `hs`. -/
def plurality (votes : WeightedUnrankedVote) (cands : List String)
    (hs : List String → List String) : Ranking :=
  let _ := cands.length
  pluralityCore (pluralityCount votes) (hs ((votes.map Prod.fst).dedup))

/-- Byte-wise comparison of character runs, used as the fixed order of
Floyd–Warshall intermediates. -/
def chLe : List Char → List Char → Bool
  | [], _ => true
  | _ :: _, [] => false
  | a :: as, b :: bs =>
    if a.toNat < b.toNat then true
    else if b.toNat < a.toNat then false
    else chLe as bs

/-- Comparison of strings by their character data. -/
def strLe (a b : String) : Bool := chLe a.data b.data

/-- Tier implicitly occupied by candidates a ranked vote omits: one below
the lowest explicit preference (`u32` arithmetic). -/
def omittedTier (v : RankedVote) : Nat :=
  ((v.map Prod.snd).foldr max 0 + 1) % U32

/-- The tier a ranked vote assigns to a candidate, omitted candidates
taking the implicit bottom tier. -/
def tierOf (v : RankedVote) (c : String) : Nat :=
  match v.find? fun y => y.1 == c with
  | some y => y.2
  | none => omittedTier v

/-- Modelled from the spec: the pairwise preference matrix — `d a b` sums
the `u32` weights of the votes preferring `a` to `b` (strictly lower
tier), ties contributing to neither side. -/
def dMat (votes : WeightedRankedVote) (a b : String) : Nat :=
  ((votes.filter fun vw => decide (tierOf vw.1 a < tierOf vw.1 b)).map Prod.snd).sum % U32

/-- Winning-variant initialisation of the beat-path strengths. -/
def pInit (votes : WeightedRankedVote) (a b : String) : Nat :=
  if dMat votes b a < dMat votes a b then dMat votes a b else 0

/-- One Floyd–Warshall relaxation through the intermediate `k`. -/
def fwStep (p : String → String → Nat) (k : String) : String → String → Nat :=
  fun a b => max (p a b) (min (p a k) (p k b))

/-- Floyd–Warshall closure over a list of intermediates. -/
def fwList (p : String → String → Nat) : List String → (String → String → Nat)
  | [] => p
  | k :: ks => fwList (fwStep p k) ks

/-- Modelled from the spec: the winning beat-path strengths.  The spec
notes the order of intermediates does not affect the final fixed point, so
the model runs the triple loop over the candidates in the fixed `strLe`
order. -/
def pMat (votes : WeightedRankedVote) (cands : List String) : String → String → Nat :=
  fwList (pInit votes) (cands.insertionSort fun a b => strLe a b = true)

/-- A candidate's Schulze rank: the number of candidates that beat it
(`p a c > p c a`). -/
def schulzeRank (votes : WeightedRankedVote) (cands : List String) (c : String) : Nat :=
  cands.countP fun a => decide (pMat votes cands c a < pMat votes cands a c)

/-- Modelled from the spec: the Schulze ranking — candidates listed by
ascending rank, candidates of equal rank staying in the order of the
candidate list handed to the tally. -/
def schulzeOk (votes : WeightedRankedVote) (cands : List String) : Ranking :=
  (cands.insertionSort fun a b => schulzeRank votes cands a ≤ schulzeRank votes cands b).map
    fun c => (c, schulzeRank votes cands c)

/-- fn schulze: a single candidate short-circuits to rank 0 (avoiding a
`tallystick` bug); otherwise every vote is re-validated against duplicate
candidates while being added, and the winners are listed. -/
def schulze (votes : WeightedRankedVote) (cands : List String) : Except Err Ranking :=
  if cands.length = 1 then .ok [(cands.headD "", 0)]
  else if votes.any (fun vw => hasDup vw.1) then .error .invalidVoteErr
  else .ok (schulzeOk votes cands)

/-- The index whose weight interval a roll lands in, walking the pool and
discounting each passed weight (`found_index` loop; `none` models running
off the end of the vector, a panic in the source). -/
def drawIndex : Nat → List (String × Nat) → Option Nat
  | _, [] => none
  | roll, x :: rest =>
    if roll ≤ x.2 then some 0
    else (drawIndex (roll - x.2) rest).map (· + 1)

/-- Vec::swap_remove — replace position `i` by the last element and drop
the last position. -/
def swapRemove (l : List (String × Nat)) (i : Nat) : List (String × Nat) :=
  (l.set i (l.getLastD ("", 0))).dropLast

/-- The lottery loop: while the pool is non-empty, draw a uniform roll in
`[1, sum]` (modelled by `gen round sum`; an empty `Uniform` range, arising
when the wrapped `u32` `sum + 1` is at most 1, is a panic, modelled as
`none`), pick the candidate whose interval the roll hits, and
`swap_remove` it into the winner list.  `fuel` bounds the iteration count
by the pool size. -/
def wrLoop (gen : Nat → Nat → Nat) : Nat → Nat → List (String × Nat) → Option (List String)
  | 0, _, pool => if pool.isEmpty then some [] else none
  | fuel + 1, round, pool =>
    if pool.isEmpty then some [] else
      let s := (pool.map Prod.snd).sum % U32
      if (s + 1) % U32 ≤ 1 then none
      else
        match drawIndex (gen round s) pool with
        | none => none
        | some i =>
          match wrLoop gen fuel (round + 1) (swapRemove pool i) with
          | none => none
          | some ws => some ((pool.getD i ("", 0)).1 :: ws)

/-- fn weighted_random: consolidate the pool, run the lottery loop, and
rank winners by order of appearance. -/
def weighted_random (votes : WeightedUnrankedVote)
    (hs : List String → List String) (gen : Nat → Nat → Nat) : Option Ranking :=
  let pool := consolidate_unranked_votes votes hs
  (wrLoop gen pool.length 0 pool).map fun ws => ws.enum.map fun p => (p.2, p.1)

/-- Modelled from the spec: the output distribution of the lottery — each
round picks candidate `c` from the remaining pool with probability
`w c / total remaining weight`; the value is the probability that the
winners appear exactly in the order `out`. -/
def lotteryProb (w : String → Nat) : Multiset String → List String → ℚ :=
  fun s out =>
    match out with
    | [] => if s = 0 then 1 else 0
    | c :: rest =>
      if c ∈ s then
        ((w c : ℚ) / ((s.map fun x => (w x : ℚ)).sum)) * lotteryProb w (s.erase c) rest
      else 0

/-- fn vote: parse the ballots, extract the candidates, resolve the
method, and dispatch to the tally; `none` models a lottery panic. -/
def vote (raw method : String) (hs : List String → List String)
    (gen : Nat → Nat → Nat) : Option (Except Err Ranking) :=
  match parse_votes raw with
  | .error e => some (.error e)
  | .ok votes =>
    let cands := candidates_from_votes votes hs
    match methodFromStr method with
    | .error e => some (.error e)
    | .ok .schulzeWinning =>
      match schulze votes cands with
      | .error e => some (.error e)
      | .ok r => some (.ok r)
    | .ok .plurality =>
      match as_unranked_votes votes with
      | .error e => some (.error e)
      | .ok u => some (.ok (plurality u cands hs))
    | .ok .weightedRandom =>
      match as_unranked_votes votes with
      | .error e => some (.error e)
      | .ok u => (weighted_random u hs gen).map .ok

/-- Equality of two invocation outcomes up to reordering of candidates
inside a successful ranking: identical panics, identical errors, and
rankings containing the same (candidate, rank) pairs. -/
def OutcomeRel : Option (Except Err Ranking) → Option (Except Err Ranking) → Prop
  | none, none => True
  | some (.error e), some (.error e') => e = e'
  | some (.ok r), some (.ok r') => r.Perm r'
  | _, _ => False

/-- The lottery distribution a ballot text induces (`none` when parsing or
the unranked projection fails). -/
def wrDist (raw : String) : Option (List String → ℚ) :=
  match parse_votes raw with
  | .error _ => none
  | .ok votes =>
    match as_unranked_votes votes with
    | .error _ => none
    | .ok u => some (lotteryProb (totalWeightMod u) ((u.map Prod.fst).dedup : Multiset String))

/-! ## Unfolding lemmas for the dispatcher -/

theorem vote_err {raw : String} {e : Err} (m : String) (hs : List String → List String)
    (gen : Nat → Nat → Nat) (h : parse_votes raw = .error e) :
    vote raw m hs gen = some (.error e) := by
  unfold vote
  rw [h]

theorem vote_schulze_eq {raw : String} {V : WeightedRankedVote}
    (hs : List String → List String) (gen : Nat → Nat → Nat)
    (h : parse_votes raw = .ok V) :
    vote raw "Schulze Winning" hs gen = some (schulze V (candidates_from_votes V hs)) := by
  unfold vote
  rw [h]
  cases hsv : schulze V (candidates_from_votes V hs) <;> simp [methodFromStr, hsv]

theorem vote_plurality_eq {raw : String} {V : WeightedRankedVote}
    (hs : List String → List String) (gen : Nat → Nat → Nat)
    (h : parse_votes raw = .ok V) :
    vote raw "Plurality" hs gen =
      some ((as_unranked_votes V).map fun u => plurality u (candidates_from_votes V hs) hs) := by
  unfold vote
  rw [h]
  cases hu : as_unranked_votes V <;> simp [methodFromStr, hu, Except.map]

theorem vote_wr_eq {raw : String} {V : WeightedRankedVote}
    (hs : List String → List String) (gen : Nat → Nat → Nat)
    (h : parse_votes raw = .ok V) :
    vote raw "Weighted Random" hs gen =
      (match as_unranked_votes V with
        | .error e => some (.error e)
        | .ok u => (weighted_random u hs gen).map Except.ok) := by
  unfold vote
  rw [h]
  cases hu : as_unranked_votes V <;> simp [methodFromStr, hu]

theorem vote_method_err {raw s : String} {V : WeightedRankedVote}
    (hs : List String → List String) (gen : Nat → Nat → Nat)
    (h : parse_votes raw = .ok V) (hm : methodFromStr s = .error .unknownMethodErr) :
    vote raw s hs gen = some (.error .unknownMethodErr) := by
  unfold vote
  rw [h, hm]

/-! ## Facts about line-by-line parsing -/

theorem parseAll_isSome {ls : List (List Char)}
    (h : ∀ l ∈ ls, (parseLine l).isSome) : (parseAll ls).isSome := by
  induction ls with
  | nil => simp [parseAll]
  | cons a as ih =>
    have ha := h a (by simp)
    cases hpa : parseLine a with
    | none => rw [hpa] at ha; cases ha
    | some v =>
      have hrest := ih fun l hl => h l (by simp [hl])
      cases hras : parseAll as with
      | none => rw [hras] at hrest; cases hrest
      | some vs => simp [parseAll, hpa, hras]

theorem parseAll_mem {ls : List (List Char)} {vs : WeightedRankedVote}
    {l : List Char} {vw : RankedVote × Nat}
    (h : parseAll ls = some vs) (hl : l ∈ ls) (hp : parseLine l = some vw) :
    vw ∈ vs := by
  induction ls generalizing vs with
  | nil => cases hl
  | cons a as ih =>
    cases hpa : parseLine a with
    | none => rw [parseAll, hpa] at h; cases h
    | some v =>
      cases hras : parseAll as with
      | none => rw [parseAll, hpa, hras] at h; cases h
      | some vs' =>
        rw [parseAll, hpa, hras] at h
        cases h
        rcases List.mem_cons.mp hl with rfl | hl'
        · rw [hpa] at hp
          cases hp
          exact List.mem_cons_self _ _
        · exact List.mem_cons_of_mem _ (ih hras hl')

theorem parseRanking_shape {toks : List Tok} {rv : RankedVote}
    (h : parseRanking toks = some rv) : ∃ c rest, rv = (c, 0) :: rest := by
  match toks with
  | [] => cases h
  | Tok.gtTok :: _ => cases h
  | Tok.eqTok :: _ => cases h
  | Tok.starTok :: _ => cases h
  | Tok.textTok s :: rest =>
    rw [parseRanking] at h
    cases hc : candName s with
    | none => rw [hc] at h; cases h
    | some c =>
      cases hr : parseRest rest 0 with
      | none => rw [hc, hr] at h; cases h
      | some r =>
        rw [hc, hr] at h
        cases h
        exact ⟨c, r, rfl⟩

theorem parseLine_shape {l : List Char} {rv : RankedVote} {w : Nat}
    (h : parseLine l = some (rv, w)) : rv = [] ∨ ∃ c rest, rv = (c, 0) :: rest := by
  rw [parseLine] at h
  by_cases he : (trimChars l).isEmpty
  · rw [if_pos he] at h
    cases h
    exact Or.inl rfl
  · rw [if_neg he] at h
    rcases hsp : splitStar (tokenize l) with ⟨pre, post⟩
    rw [hsp] at h
    cases post with
    | none =>
      dsimp only at h
      obtain ⟨r, hr, hrw⟩ := Option.map_eq_some'.mp h
      cases hrw
      exact Or.inr (parseRanking_shape hr)
    | some post =>
      dsimp only at h
      cases hpr : parseRanking pre with
      | none => rw [hpr] at h; cases h
      | some r =>
        cases hpw : parseWeight post with
        | none => rw [hpr, hpw] at h; cases h
        | some w' =>
          rw [hpr, hpw] at h
          cases h
          exact Or.inr (parseRanking_shape hpr)

theorem parseWeight_pos {post : List Tok} {w : Nat}
    (h : parseWeight post = some w) : 1 ≤ w ∧ w < U32 := by
  match post with
  | [] => cases h
  | Tok.gtTok :: _ => cases h
  | Tok.eqTok :: _ => cases h
  | Tok.starTok :: _ => cases h
  | Tok.textTok s :: _ :: _ => cases h
  | [Tok.textTok s] =>
    rw [parseWeight] at h
    cases hn : parseNatChars (trimChars s) with
    | none => rw [hn] at h; cases h
    | some n =>
      rw [hn] at h
      dsimp only at h
      by_cases hc : 1 ≤ n ∧ n < U32
      · rw [if_pos hc] at h
        cases h
        exact hc
      · rw [if_neg hc] at h
        cases h

theorem parseLine_weight_pos {l : List Char} {rv : RankedVote} {w : Nat}
    (h : parseLine l = some (rv, w)) : 1 ≤ w := by
  rw [parseLine] at h
  by_cases he : (trimChars l).isEmpty
  · rw [if_pos he] at h
    cases h
    exact Nat.le_refl 1
  · rw [if_neg he] at h
    rcases hsp : splitStar (tokenize l) with ⟨pre, post⟩
    rw [hsp] at h
    cases post with
    | none =>
      dsimp only at h
      obtain ⟨r, _, hrw⟩ := Option.map_eq_some'.mp h
      cases hrw
      exact Nat.le_refl 1
    | some post =>
      dsimp only at h
      cases hpr : parseRanking pre with
      | none => rw [hpr] at h; cases h
      | some r =>
        cases hpw : parseWeight post with
        | none => rw [hpr, hpw] at h; cases h
        | some w' =>
          rw [hpr, hpw] at h
          cases h
          exact (parseWeight_pos hpw).1

theorem parseAll_mem_exists {ls : List (List Char)} {vs : WeightedRankedVote}
    {vw : RankedVote × Nat} (h : parseAll ls = some vs) (hm : vw ∈ vs) :
    ∃ l ∈ ls, parseLine l = some vw := by
  induction ls generalizing vs with
  | nil =>
    rw [parseAll] at h
    cases h
    cases hm
  | cons a as ih =>
    cases hpa : parseLine a with
    | none => rw [parseAll, hpa] at h; cases h
    | some v =>
      cases hras : parseAll as with
      | none => rw [parseAll, hpa, hras] at h; cases h
      | some vs' =>
        rw [parseAll, hpa, hras] at h
        cases h
        rcases List.mem_cons.mp hm with rfl | hm'
        · exact ⟨a, List.mem_cons_self _ _, hpa⟩
        · obtain ⟨l, hl, hp⟩ := ih hras hm'
          exact ⟨l, List.mem_cons_of_mem _ hl, hp⟩

theorem parse_votes_ok_mem {raw : String} {V : WeightedRankedVote}
    {vw : RankedVote × Nat} (h : parse_votes raw = .ok V) (hm : vw ∈ V) :
    ∃ l ∈ linesOf raw, parseLine l = some vw := by
  rw [parse_votes] at h
  cases hpa : parseAll (linesOf raw) with
  | none => rw [hpa] at h; cases h
  | some vs =>
    rw [hpa] at h
    dsimp only at h
    by_cases hd : vs.any fun x => hasDup x.1
    · rw [if_pos hd] at h; cases h
    · rw [if_neg hd] at h
      cases h
      exact parseAll_mem_exists hpa hm

theorem parse_votes_nodup {raw : String} {V : WeightedRankedVote}
    (h : parse_votes raw = .ok V) : ∀ vw ∈ V, hasDup vw.1 = false := by
  rw [parse_votes] at h
  cases hpa : parseAll (linesOf raw) with
  | none => rw [hpa] at h; cases h
  | some vs =>
    rw [hpa] at h
    dsimp only at h
    by_cases hd : vs.any fun x => hasDup x.1
    · rw [if_pos hd] at h; cases h
    · rw [if_neg hd] at h
      cases h
      intro vw hm
      simpa using List.any_eq_false.mp (Bool.of_not_eq_true hd) vw hm

theorem parse_votes_weight_pos {raw : String} {V : WeightedRankedVote}
    (h : parse_votes raw = .ok V) : ∀ vw ∈ V, 1 ≤ vw.2 := by
  intro vw hm
  obtain ⟨l, _, hp⟩ := parse_votes_ok_mem h hm
  exact parseLine_weight_pos (by rw [hp])

theorem parse_votes_first_tier {raw : String} {V : WeightedRankedVote}
    (h : parse_votes raw = .ok V) :
    ∀ vw ∈ V, vw.1 = [] ∨ ∃ c rest, vw.1 = (c, 0) :: rest := by
  intro vw hm
  obtain ⟨l, _, hp⟩ := parse_votes_ok_mem h hm
  exact parseLine_shape (by rw [hp])

/-! ## C2: tied first choice -/

/-- C2: the line `A = B` (two candidates tied at tier 0) makes the vote
operation fail with the ambiguous-first-choice error under Plurality and
Weighted Random but succeed under Schulze Winning, and in general the
unranked projection fails exactly when some ranked vote holds more than
one tier-0 candidate. -/
theorem c2_tied_first_choice :
    (∀ hs gen, vote "A = B" "Plurality" hs gen = some (.error .ambiguousErr))
    ∧ (∀ hs gen, vote "A = B" "Weighted Random" hs gen = some (.error .ambiguousErr))
    ∧ (∀ hs gen, (∀ l, (hs l).Perm l) →
        ∃ r, vote "A = B" "Schulze Winning" hs gen = some (.ok r))
    ∧ (∀ votes : WeightedRankedVote,
        (∃ e, as_unranked_votes votes = .error e) ↔
          ∃ vw ∈ votes, 1 < (vw.1.filter fun y => y.2 == 0).length) := by
  refine ⟨?_, ?_, ?_, ?_⟩
  · intro hs gen
    rw [vote_plurality_eq (V := [([("A", 0), ("B", 0)], 1)]) hs gen (by decide)]
    rfl
  · intro hs gen
    rw [vote_wr_eq (V := [([("A", 0), ("B", 0)], 1)]) hs gen (by decide)]
    rfl
  · intro hs gen hhs
    have hlen : (hs ["A", "B"]).length = 2 := (hhs ["A", "B"]).length_eq
    refine ⟨schulzeOk [([("A", 0), ("B", 0)], 1)] (hs ["A", "B"]), ?_⟩
    rw [vote_schulze_eq (V := [([("A", 0), ("B", 0)], 1)]) hs gen (by decide)]
    have hc : candidates_from_votes [([("A", 0), ("B", 0)], 1)] hs = hs ["A", "B"] := rfl
    rw [hc, schulze, if_neg (by omega), if_neg (by decide)]
  · intro votes
    constructor
    · rintro ⟨e, he⟩
      rw [as_unranked_votes] at he
      by_cases hc : votes.any fun x => decide (1 < (x.1.filter fun y => y.2 == 0).length)
      · simpa using hc
      · rw [if_neg hc] at he
        cases he
    · intro hex
      refine ⟨.ambiguousErr, ?_⟩
      rw [as_unranked_votes, if_pos (by simpa using hex)]

/-- Witness instantiating C2's quantified parts at the identity iteration
order. -/
theorem c2_tied_first_choice_witness :
    vote "A = B" "Plurality" id (fun _ _ => 1) = some (.error .ambiguousErr)
    ∧ (∃ r, vote "A = B" "Schulze Winning" id (fun _ _ => 1) = some (.ok r))
    ∧ ((∃ e, as_unranked_votes [([("A", 0), ("B", 0)], 1)] = .error e) ↔
        ∃ vw ∈ [([("A", 0), ("B", 0)], 1)], 1 < (vw.1.filter fun y => y.2 == 0).length) :=
  ⟨c2_tied_first_choice.1 id _,
   c2_tied_first_choice.2.2.1 id _ (fun l => List.Perm.refl l),
   c2_tied_first_choice.2.2.2 _⟩

/-! ## C7: method resolution -/

/-- C7 as stated is false: with an unparseable ballot text, an unknown
method string yields the parse error, not the unknown-method error,
because `fn vote` parses the ballots before resolving the method. -/
theorem c7_counterexample :
    ¬ (∀ (raw s : String) hs gen,
        s ≠ "Plurality" → s ≠ "Schulze Winning" → s ≠ "Weighted Random" →
        vote raw s hs gen = some (.error .unknownMethodErr)) := by
  intro h
  have := h "*" "Foo" id (fun _ _ => 1) (by decide) (by decide) (by decide)
  exact absurd this (by decide)

/-- C7 amended: method resolution succeeds exactly on the three canonical
strings; for any other string the operation never tallies — it returns the
unknown-method error whenever the ballot text parses, and in every case
returns some error. -/
theorem c7_amended :
    methodFromStr "Plurality" = .ok .plurality
    ∧ methodFromStr "Schulze Winning" = .ok .schulzeWinning
    ∧ methodFromStr "Weighted Random" = .ok .weightedRandom
    ∧ (∀ s, s ≠ "Plurality" → s ≠ "Schulze Winning" → s ≠ "Weighted Random" →
        methodFromStr s = .error .unknownMethodErr)
    ∧ (∀ raw s hs gen V, parse_votes raw = .ok V →
        s ≠ "Plurality" → s ≠ "Schulze Winning" → s ≠ "Weighted Random" →
        vote raw s hs gen = some (.error .unknownMethodErr))
    ∧ (∀ raw s hs gen, s ≠ "Plurality" → s ≠ "Schulze Winning" → s ≠ "Weighted Random" →
        ∃ e, vote raw s hs gen = some (.error e)) := by
  have hm : ∀ s, s ≠ "Plurality" → s ≠ "Schulze Winning" → s ≠ "Weighted Random" →
      methodFromStr s = .error .unknownMethodErr := by
    intro s h1 h2 h3
    rw [methodFromStr, if_neg h1, if_neg h2, if_neg h3]
  refine ⟨rfl, rfl, rfl, hm, ?_, ?_⟩
  · intro raw s hs gen V hV h1 h2 h3
    exact vote_method_err hs gen hV (hm s h1 h2 h3)
  · intro raw s hs gen h1 h2 h3
    cases hp : parse_votes raw with
    | error e => exact ⟨e, vote_err s hs gen hp⟩
    | ok V => exact ⟨.unknownMethodErr, vote_method_err hs gen hp (hm s h1 h2 h3)⟩

/-- Witness instantiating C7's amended statement at concrete inputs. -/
theorem c7_amended_witness :
    methodFromStr "Borda" = .error .unknownMethodErr
    ∧ vote "A" "Borda" id (fun _ _ => 1) = some (.error .unknownMethodErr)
    ∧ (∃ e, vote "*" "Foo" id (fun _ _ => 1) = some (.error e)) :=
  ⟨c7_amended.2.2.2.1 "Borda" (by decide) (by decide) (by decide),
   c7_amended.2.2.2.2.1 "A" "Borda" id _ [([("A", 0)], 1)] (by decide)
     (by decide) (by decide) (by decide),
   c7_amended.2.2.2.2.2 "*" "Foo" id _ (by decide) (by decide) (by decide)⟩

/-! ## C3: duplicate candidate in one ranking -/

/-- C3 as stated is false: a text containing a duplicate-candidate line
and also a grammatically malformed line fails with the stray-character
parse error, not the duplicate-candidate error, because `parse_votes`
reads every line before checking for duplicates. -/
theorem c3_counterexample :
    ¬ (∀ raw : String,
        (∃ l ∈ linesOf raw, ∃ rv w, parseLine l = some (rv, w) ∧ hasDup rv = true) →
        parse_votes raw = .error .dupErr) := by
  intro h
  have := h "A > A\n*"
    ⟨"A > A".data, by decide, [("A", 0), ("A", 1)], 1, by decide, by decide⟩
  exact absurd this (by decide)

/-- C3 amended: a text containing a line whose ranking repeats a candidate
always fails — with the duplicate-candidate error as soon as every line is
grammatically well-formed, and in every case the vote operation returns a
parse-stage error (never a ranking) for every method string. -/
theorem c3_amended :
    ∀ (raw m : String) hs gen,
      (∃ l ∈ linesOf raw, ∃ rv w, parseLine l = some (rv, w) ∧ hasDup rv = true) →
      ((∀ l ∈ linesOf raw, (parseLine l).isSome) → parse_votes raw = .error .dupErr)
      ∧ ∃ e, vote raw m hs gen = some (.error e) ∧ (e = .parseErr ∨ e = .dupErr) := by
  intro raw m hs gen ⟨l, hl, rv, w, hp, hd⟩
  have key : parse_votes raw = .error .parseErr ∨ parse_votes raw = .error .dupErr := by
    cases hpa : parseAll (linesOf raw) with
    | none => exact Or.inl (by rw [parse_votes, hpa])
    | some vs =>
      refine Or.inr ?_
      have hmem : (rv, w) ∈ vs := parseAll_mem hpa hl hp
      have hany : vs.any (fun x => hasDup x.1) = true :=
        List.any_eq_true.mpr ⟨(rv, w), hmem, hd⟩
      rw [parse_votes, hpa]
      dsimp only
      rw [if_pos hany]
  constructor
  · intro hall
    rcases key with hk | hk
    · exfalso
      have := parseAll_isSome hall
      rw [parse_votes] at hk
      cases hpa : parseAll (linesOf raw) with
      | none => rw [hpa] at this; cases this
      | some vs =>
        rw [hpa] at hk
        dsimp only at hk
        by_cases hd' : vs.any fun x => hasDup x.1
        · rw [if_pos hd'] at hk; cases hk
        · rw [if_neg hd'] at hk; cases hk
    · exact hk
  · rcases key with hk | hk
    · exact ⟨.parseErr, vote_err m hs gen hk, Or.inl rfl⟩
    · exact ⟨.dupErr, vote_err m hs gen hk, Or.inr rfl⟩

/-- Witness instantiating C3's amended statement on `A > A`. -/
theorem c3_amended_witness :
    parse_votes "A > A" = .error .dupErr
    ∧ ∃ e, vote "A > A" "Plurality" id (fun _ _ => 1) = some (.error e)
        ∧ (e = .parseErr ∨ e = .dupErr) := by
  have h := c3_amended "A > A" "Plurality" id (fun _ _ => 1)
    ⟨"A > A".data, by decide, [("A", 0), ("A", 1)], 1, by decide, by decide⟩
  exact ⟨h.1 (by decide), h.2⟩

/-! ## C8: the unranked projection -/

/-- C8 as stated is false: a non-empty ranked vote with no tier-0
candidate is not omitted — the projection emits the empty-string
candidate with the vote's weight (`unwrap_or_default`), since the source
only filters out empty votes. -/
theorem c8_counterexample :
    ¬ (∀ votes : WeightedRankedVote,
        (votes.any fun x => decide (1 < (x.1.filter fun y => y.2 == 0).length)) = false →
        as_unranked_votes votes = .ok (votes.filterMap fun x =>
          if (x.1.filter fun y => y.2 == 0).length = 1 then
            some ((firstChoices x.1).headD "", x.2)
          else none)) := by
  intro h
  have := h [([("A", 1)], 1)] (by decide)
  exact absurd this (by decide)

theorem unranked_filterMap_eq (votes : WeightedRankedVote) :
    ((votes.filter fun x => !x.1.isEmpty).map fun x => ((firstChoices x.1).headD "", x.2)) =
      votes.filterMap fun x =>
        if x.1.isEmpty then none
        else match firstChoices x.1 with
          | [] => some ("", x.2)
          | c :: _ => some (c, x.2) := by
  induction votes with
  | nil => rfl
  | cons a as ih =>
    rcases a with ⟨v, w⟩
    rw [List.filterMap_cons]
    cases v with
    | nil =>
      rw [List.filter_cons_of_neg (by simp)]
      dsimp only [List.isEmpty_nil, if_pos]
      exact ih
    | cons y ys =>
      rw [List.filter_cons_of_pos (by simp), List.map_cons]
      cases hfc : firstChoices (y :: ys) with
      | nil =>
        simp [hfc]
        simpa using ih
      | cons c cs =>
        simp [hfc]
        simpa using ih

/-- C8 amended: under the no-ambiguity precondition the projection keeps
exactly the non-empty votes — a vote with one tier-0 candidate becomes
(that candidate, weight), while a non-empty vote with no tier-0 candidate
becomes (empty string, weight); empty votes alone are omitted.  Votes
produced by the parser never hit the empty-string case: every non-empty
parsed ranking starts at tier 0. -/
theorem c8_amended :
    (∀ votes : WeightedRankedVote,
      (votes.any fun x => decide (1 < (x.1.filter fun y => y.2 == 0).length)) = false →
      as_unranked_votes votes = .ok (votes.filterMap fun x =>
        if x.1.isEmpty then none
        else match firstChoices x.1 with
          | [] => some ("", x.2)
          | c :: _ => some (c, x.2)))
    ∧ (∀ raw V, parse_votes raw = .ok V →
        ∀ vw ∈ V, vw.1 ≠ [] → firstChoices vw.1 ≠ []) := by
  constructor
  · intro votes hno
    rw [as_unranked_votes, if_neg (by simp [hno]), unranked_filterMap_eq]
  · intro raw V hV vw hm hne
    rcases parse_votes_first_tier hV vw hm with h0 | ⟨c, rest, hshape⟩
    · exact absurd h0 hne
    · rw [hshape, firstChoices]
      simp

/-- Witness instantiating C8's amended statement at concrete inputs. -/
theorem c8_amended_witness :
    as_unranked_votes [([("A", 0), ("B", 1)], 2), ([], 1), ([("C", 1)], 3)] =
      .ok [("A", 2), ("", 3)]
    ∧ firstChoices [("A", 0)] ≠ [] := by
  constructor
  · rw [c8_amended.1 [([("A", 0), ("B", 1)], 2), ([], 1), ([("C", 1)], 3)] (by decide)]
    rfl
  · exact c8_amended.2 "A" [([("A", 0)], 1)] (by decide) ([("A", 0)], 1) (by decide)
      (by decide)

/-! ## C9: cyclic Schulze input -/

theorem perm_two_cases {x y : String} (hne : x ≠ y) {l : List String}
    (h : l.Perm [x, y]) : l = [x, y] ∨ l = [y, x] := by
  obtain ⟨a, b, rfl⟩ := List.length_eq_two.mp h.length_eq
  have ha : a = x ∨ a = y := by
    simpa using h.mem_iff.mp (show a ∈ [a, b] by simp)
  rcases ha with ha | ha
  · subst ha
    left
    rw [List.perm_singleton.mp h.cons_inv]
  · subst ha
    right
    have hyx : ([x, a] : List String).Perm (a :: [x]) := by
      have hm : a ∈ [x, a] := by simp
      have he : ([x, a] : List String).erase a = [x] := by
        simp [List.erase_cons, fun hh : x = a => hne hh]
      have hpe := List.perm_cons_erase hm
      rwa [he] at hpe
    rw [List.perm_singleton.mp (h.trans hyx).cons_inv]

theorem perm_CAB_cases {l : List String} (h : l.Perm ["C", "A", "B"]) :
    l = ["C", "A", "B"] ∨ l = ["C", "B", "A"] ∨ l = ["A", "C", "B"] ∨
    l = ["A", "B", "C"] ∨ l = ["B", "C", "A"] ∨ l = ["B", "A", "C"] := by
  obtain ⟨a, b, c, rfl⟩ := List.length_eq_three.mp h.length_eq
  have ha : a = "C" ∨ a = "A" ∨ a = "B" := by
    simpa using h.mem_iff.mp (show a ∈ [a, b, c] by simp)
  rcases ha with ha | ha | ha <;> subst ha
  · have ht : [b, c].Perm ["A", "B"] := h.cons_inv
    rcases perm_two_cases (by decide) ht with h2 | h2
    · obtain ⟨rfl, rfl⟩ : b = "A" ∧ c = "B" := by simpa using h2
      exact Or.inl rfl
    · obtain ⟨rfl, rfl⟩ : b = "B" ∧ c = "A" := by simpa using h2
      exact Or.inr (Or.inl rfl)
  · have hstep := List.perm_cons_erase (show "A" ∈ ["C", "A", "B"] by simp)
    have he : (["C", "A", "B"] : List String).erase "A" = ["C", "B"] := by decide
    rw [he] at hstep
    have ht : [b, c].Perm ["C", "B"] := (h.trans hstep).cons_inv
    rcases perm_two_cases (by decide) ht with h2 | h2
    · obtain ⟨rfl, rfl⟩ : b = "C" ∧ c = "B" := by simpa using h2
      exact Or.inr (Or.inr (Or.inl rfl))
    · obtain ⟨rfl, rfl⟩ : b = "B" ∧ c = "C" := by simpa using h2
      exact Or.inr (Or.inr (Or.inr (Or.inl rfl)))
  · have hstep := List.perm_cons_erase (show "B" ∈ ["C", "A", "B"] by simp)
    have he : (["C", "A", "B"] : List String).erase "B" = ["C", "A"] := by decide
    rw [he] at hstep
    have ht : [b, c].Perm ["C", "A"] := (h.trans hstep).cons_inv
    rcases perm_two_cases (by decide) ht with h2 | h2
    · obtain ⟨rfl, rfl⟩ : b = "C" ∧ c = "A" := by simpa using h2
      exact Or.inr (Or.inr (Or.inr (Or.inr (Or.inl rfl))))
    · obtain ⟨rfl, rfl⟩ : b = "A" ∧ c = "C" := by simpa using h2
      exact Or.inr (Or.inr (Or.inr (Or.inr (Or.inr rfl))))

/-- C9: the three-line cycle `A > B > C`, `B > C > A`, `C > A > B` under
Schulze Winning succeeds with all three candidates tied at rank 0, for
every iteration order of the candidate set. -/
theorem c9_cyclic_schulze :
    ∀ hs gen, (∀ l, (hs l).Perm l) →
      ∃ r, vote "A > B > C\nB > C > A\nC > A > B" "Schulze Winning" hs gen = some (.ok r)
        ∧ r.Perm [("A", 0), ("B", 0), ("C", 0)] := by
  intro hs gen hhs
  rw [vote_schulze_eq
    (V := [([("A", 0), ("B", 1), ("C", 2)], 1), ([("B", 0), ("C", 1), ("A", 2)], 1),
      ([("C", 0), ("A", 1), ("B", 2)], 1)]) hs gen (by decide)]
  have hc : candidates_from_votes
      [([("A", 0), ("B", 1), ("C", 2)], 1), ([("B", 0), ("C", 1), ("A", 2)], 1),
        ([("C", 0), ("A", 1), ("B", 2)], 1)] hs = hs ["C", "A", "B"] := rfl
  rw [hc]
  rcases perm_CAB_cases (hhs ["C", "A", "B"]) with h | h | h | h | h | h <;>
    (rw [h]; exact ⟨_, rfl, by decide⟩)

/-- Witness instantiating C9 at the identity iteration order. -/
theorem c9_cyclic_schulze_witness :
    ∃ r, vote "A > B > C\nB > C > A\nC > A > B" "Schulze Winning" id (fun _ _ => 1) =
        some (.ok r) ∧ r.Perm [("A", 0), ("B", 0), ("C", 0)] :=
  c9_cyclic_schulze id _ fun l => List.Perm.refl l

/-! ## Order facts for the byte-wise string comparison -/

theorem chLe_total : ∀ as bs : List Char, chLe as bs = true ∨ chLe bs as = true := by
  intro as
  induction as with
  | nil => intro bs; exact Or.inl rfl
  | cons a as ih =>
    intro bs
    cases bs with
    | nil => exact Or.inr rfl
    | cons b bs =>
      by_cases h1 : a.toNat < b.toNat
      · exact Or.inl (by simp [chLe, h1])
      · by_cases h2 : b.toNat < a.toNat
        · exact Or.inr (by simp [chLe, h2])
        · rcases ih bs with h | h
          · exact Or.inl (by simp [chLe, h1, h2, h])
          · exact Or.inr (by simp [chLe, h1, h2, h])

theorem chLe_trans : ∀ as bs cs : List Char,
    chLe as bs = true → chLe bs cs = true → chLe as cs = true := by
  intro as
  induction as with
  | nil => intro bs cs _ _; rfl
  | cons a as ih =>
    intro bs cs h1 h2
    cases bs with
    | nil => cases h1
    | cons b bs =>
      cases cs with
      | nil => cases h2
      | cons c cs =>
        simp only [chLe] at h1 h2 ⊢
        by_cases hab : a.toNat < b.toNat
        · by_cases hbc : b.toNat < c.toNat
          · simp [show a.toNat < c.toNat by omega]
          · by_cases hcb : c.toNat < b.toNat
            · rw [if_neg hbc, if_pos hcb] at h2; cases h2
            · simp [show a.toNat < c.toNat by omega]
        · by_cases hba : b.toNat < a.toNat
          · rw [if_neg hab, if_pos hba] at h1; cases h1
          · by_cases hbc : b.toNat < c.toNat
            · simp [show a.toNat < c.toNat by omega]
            · by_cases hcb : c.toNat < b.toNat
              · rw [if_neg hbc, if_pos hcb] at h2; cases h2
              · rw [if_neg hab, if_neg hba] at h1
                rw [if_neg hbc, if_neg hcb] at h2
                simp [show ¬(a.toNat < c.toNat) by omega, show ¬(c.toNat < a.toNat) by omega,
                  ih bs cs h1 h2]

theorem char_toNat_inj {a b : Char} (h : a.toNat = b.toNat) : a = b := by
  have h1 : a.val.toNat = b.val.toNat := h
  exact Char.ext (UInt32.toNat.inj h1)

theorem chLe_antisymm : ∀ as bs : List Char,
    chLe as bs = true → chLe bs as = true → as = bs := by
  intro as
  induction as with
  | nil =>
    intro bs h1 h2
    cases bs with
    | nil => rfl
    | cons b bs => cases h2
  | cons a as ih =>
    intro bs h1 h2
    cases bs with
    | nil => cases h1
    | cons b bs =>
      simp only [chLe] at h1 h2
      by_cases hab : a.toNat < b.toNat
      · rw [if_neg (by omega), if_pos hab] at h2; cases h2
      · by_cases hba : b.toNat < a.toNat
        · rw [if_neg hab, if_pos hba] at h1; cases h1
        · rw [if_neg hab, if_neg hba] at h1
          rw [if_neg hba, if_neg hab] at h2
          rw [char_toNat_inj (by omega : a.toNat = b.toNat), ih bs h1 h2]

theorem string_mk_data (s : String) : String.mk s.data = s := by cases s; rfl

instance strLeRelTotal : IsTotal String fun a b => strLe a b = true :=
  ⟨fun a b => chLe_total a.data b.data⟩

instance strLeRelTrans : IsTrans String fun a b => strLe a b = true :=
  ⟨fun a b c h1 h2 => chLe_trans a.data b.data c.data h1 h2⟩

instance strLeRelAntisymm : IsAntisymm String fun a b => strLe a b = true :=
  ⟨fun a b h1 h2 => by
    have := chLe_antisymm a.data b.data h1 h2
    rw [← string_mk_data a, ← string_mk_data b, this]⟩

theorem sort_strLe_eq {k k' : List String} (h : k.Perm k') :
    k.insertionSort (fun a b => strLe a b = true) =
      k'.insertionSort (fun a b => strLe a b = true) :=
  List.eq_of_perm_of_sorted
    (((List.perm_insertionSort _ k).trans h).trans (List.perm_insertionSort _ k').symm)
    (List.sorted_insertionSort _ k) (List.sorted_insertionSort _ k')

/-! ## Invariance of the tallies under container iteration order -/

theorem any_perm {α : Type} {l l' : List α} (p : α → Bool) (h : l.Perm l') :
    l.any p = l'.any p := by
  rw [Bool.eq_iff_iff, List.any_eq_true, List.any_eq_true]
  exact ⟨fun ⟨x, hx, hp⟩ => ⟨x, h.mem_iff.mp hx, hp⟩,
    fun ⟨x, hx, hp⟩ => ⟨x, h.mem_iff.mpr hx, hp⟩⟩

theorem pluralityCore_perm (cnt : String → Nat) {k k' : List String} (h : k.Perm k') :
    (pluralityCore cnt k).Perm (pluralityCore cnt k') := by
  simp only [pluralityCore]
  have hp : (k.filter fun c => decide (0 < cnt c)).Perm
      (k'.filter fun c => decide (0 < cnt c)) := h.filter _
  have hfun : (fun c => (c, (k.filter fun c => decide (0 < cnt c)).countP
        fun a => decide (cnt c < cnt a))) =
      (fun c => (c, (k'.filter fun c => decide (0 < cnt c)).countP
        fun a => decide (cnt c < cnt a))) := by
    funext c
    rw [hp.countP_eq]
  rw [hfun]
  exact ((List.perm_insertionSort _ _).trans
    (hp.trans (List.perm_insertionSort _ _).symm)).map _

theorem dMat_perm {V V' : WeightedRankedVote} (h : V.Perm V') :
    dMat V = dMat V' := by
  funext a b
  rw [dMat, dMat, ((h.filter _).map Prod.snd).sum_eq]

theorem pInit_perm {V V' : WeightedRankedVote} (h : V.Perm V') :
    pInit V = pInit V' := by
  funext a b
  rw [pInit, pInit, dMat_perm h]

theorem pMat_perm {V V' : WeightedRankedVote} {k k' : List String}
    (h : V.Perm V') (hk : k.Perm k') : pMat V k = pMat V' k' := by
  rw [pMat, pMat, pInit_perm h, sort_strLe_eq hk]

theorem schulzeRank_perm {V V' : WeightedRankedVote} {k k' : List String}
    (h : V.Perm V') (hk : k.Perm k') :
    schulzeRank V k = schulzeRank V' k' := by
  funext c
  rw [schulzeRank, schulzeRank, pMat_perm h hk, hk.countP_eq]

theorem schulzeOk_perm {V V' : WeightedRankedVote} {k k' : List String}
    (h : V.Perm V') (hk : k.Perm k') :
    (schulzeOk V k).Perm (schulzeOk V' k') := by
  rw [schulzeOk, schulzeOk, schulzeRank_perm h hk]
  exact ((List.perm_insertionSort _ _).trans
    (hk.trans (List.perm_insertionSort _ _).symm)).map _

/-- Equality of two tally results up to reordering of candidates inside a
successful ranking. -/
def TallyRel : Except Err Ranking → Except Err Ranking → Prop
  | .error e, .error e' => e = e'
  | .ok r, .ok r' => r.Perm r'
  | _, _ => False

theorem schulze_rel {V V' : WeightedRankedVote} {k k' : List String}
    (h : V.Perm V') (hk : k.Perm k') :
    TallyRel (schulze V k) (schulze V' k') := by
  rw [schulze, schulze]
  by_cases h1 : k.length = 1
  · obtain ⟨a, rfl⟩ := List.length_eq_one.mp h1
    have hk' : k' = [a] := List.perm_singleton.mp hk.symm
    subst hk'
    rw [if_pos h1, if_pos h1]
    exact List.Perm.refl _
  · have h1' : ¬ k'.length = 1 := by rw [← hk.length_eq]; exact h1
    rw [if_neg h1, if_neg h1', any_perm _ h]
    by_cases hd : V'.any fun vw => hasDup vw.1
    · rw [if_pos hd, if_pos hd]
      rfl
    · rw [if_neg hd, if_neg hd]
      exact schulzeOk_perm h hk

theorem outcome_of_tally {x y : Except Err Ranking} (h : TallyRel x y) :
    OutcomeRel (some x) (some y) := by
  cases x <;> cases y <;> exact h

/-! ## C1: determinism up to tie order -/

/-- C1 as stated is false: the candidate set reaches the Schulze tally
through `HashSet` iteration (`candidates_from_votes`), and candidates tied
by the beat relation are listed in candidate-set order, so two invocations
with different iteration orders return differently ordered rankings.  The
two-candidate tie `A`, `B` is a counterexample. -/
theorem c1_counterexample :
    ¬ (∀ (raw m : String) hs hs' gen gen',
        (m = "Plurality" ∨ m = "Schulze Winning") →
        (∀ l, (hs l).Perm l) → (∀ l, (hs' l).Perm l) →
        vote raw m hs gen = vote raw m hs' gen') := by
  intro h
  have := h "A\nB" "Schulze Winning" id List.reverse (fun _ _ => 1) (fun _ _ => 1)
    (Or.inr rfl) (fun l => List.Perm.refl l) (fun l => List.reverse_perm l)
  exact absurd this (by decide)

/-- C1 amended: for Plurality and Schulze Winning the vote operation is
deterministic up to the output order of tied candidates — any two
invocations on the same ballot text agree on panics, on errors, and on the
set of (candidate, rank) pairs; only the order in which equal-rank
candidates are listed follows the unordered-container iteration order. -/
theorem c1_amended :
    ∀ (raw m : String) hs hs' gen gen',
      (m = "Plurality" ∨ m = "Schulze Winning") →
      (∀ l, (hs l).Perm l) → (∀ l, (hs' l).Perm l) →
      OutcomeRel (vote raw m hs gen) (vote raw m hs' gen') := by
  intro raw m hs hs' gen gen' hm hhs hhs'
  cases hp : parse_votes raw with
  | error e =>
    rw [vote_err m hs gen hp, vote_err m hs' gen' hp]
    exact rfl
  | ok V =>
    rcases hm with rfl | rfl
    · rw [vote_plurality_eq hs gen hp, vote_plurality_eq hs' gen' hp]
      cases hu : as_unranked_votes V with
      | error e => exact rfl
      | ok u =>
        show (plurality u (candidates_from_votes V hs) hs).Perm
          (plurality u (candidates_from_votes V hs') hs')
        simp only [plurality]
        exact pluralityCore_perm _ ((hhs _).trans (hhs' _).symm)
    · rw [vote_schulze_eq hs gen hp, vote_schulze_eq hs' gen' hp]
      exact outcome_of_tally
        (schulze_rel (List.Perm.refl V) ((hhs _).trans (hhs' _).symm))

/-- Witness instantiating C1's amended statement: the two iteration orders
of the counterexample still produce the same pairs. -/
theorem c1_amended_witness :
    OutcomeRel (vote "A\nB" "Schulze Winning" id (fun _ _ => 1))
      (vote "A\nB" "Schulze Winning" List.reverse (fun _ _ => 1)) :=
  c1_amended "A\nB" "Schulze Winning" id List.reverse _ _ (Or.inr rfl)
    (fun l => List.Perm.refl l) (fun l => List.reverse_perm l)

/-! ## C5: invariance under line reordering -/

theorem parseAll_perm {ls ls' : List (List Char)} (h : ls.Perm ls') :
    (parseAll ls = none ∧ parseAll ls' = none) ∨
    ∃ vs vs', parseAll ls = some vs ∧ parseAll ls' = some vs' ∧ vs.Perm vs' := by
  induction h with
  | nil => exact Or.inr ⟨[], [], rfl, rfl, .refl _⟩
  | cons x h ih =>
    cases hx : parseLine x with
    | none => exact Or.inl ⟨by simp [parseAll, hx], by simp [parseAll, hx]⟩
    | some v =>
      rcases ih with ⟨h1, h2⟩ | ⟨vs, vs', h1, h2, hp⟩
      · exact Or.inl ⟨by simp [parseAll, hx, h1], by simp [parseAll, hx, h2]⟩
      · exact Or.inr ⟨v :: vs, v :: vs', by simp [parseAll, hx, h1],
          by simp [parseAll, hx, h2], hp.cons v⟩
  | swap x y l =>
    cases hx : parseLine x with
    | none =>
      exact Or.inl ⟨by cases hy : parseLine y <;> simp [parseAll, hx, hy],
        by simp [parseAll, hx]⟩
    | some vx =>
      cases hy : parseLine y with
      | none => exact Or.inl ⟨by simp [parseAll, hy], by simp [parseAll, hx, hy]⟩
      | some vy =>
        cases hl : parseAll l with
        | none => exact Or.inl ⟨by simp [parseAll, hx, hy, hl], by simp [parseAll, hx, hy, hl]⟩
        | some vs =>
          exact Or.inr ⟨vy :: vx :: vs, vx :: vy :: vs,
            by simp [parseAll, hx, hy, hl], by simp [parseAll, hx, hy, hl],
            List.Perm.swap vx vy vs⟩
  | trans h1 h2 ih1 ih2 =>
    rcases ih1 with ⟨a1, a2⟩ | ⟨vs, vs', b1, b2, hp⟩ <;>
      rcases ih2 with ⟨c1, c2⟩ | ⟨ws, ws', d1, d2, hq⟩
    · exact Or.inl ⟨a1, c2⟩
    · rw [a2] at d1; cases d1
    · rw [b2] at c1; cases c1
    · rw [b2] at d1
      cases d1
      exact Or.inr ⟨vs, ws', b1, d2, hp.trans hq⟩

theorem parse_votes_perm {raw raw' : String} (h : (linesOf raw).Perm (linesOf raw')) :
    (∃ e, parse_votes raw = .error e ∧ parse_votes raw' = .error e) ∨
    ∃ V V', parse_votes raw = .ok V ∧ parse_votes raw' = .ok V' ∧ V.Perm V' := by
  rcases parseAll_perm h with ⟨h1, h2⟩ | ⟨vs, vs', h1, h2, hp⟩
  · exact Or.inl ⟨.parseErr, by rw [parse_votes, h1], by rw [parse_votes, h2]⟩
  · have hany := any_perm (fun x => hasDup x.1) hp
    by_cases hd : vs.any fun x => hasDup x.1
    · refine Or.inl ⟨.dupErr, ?_, ?_⟩
      · rw [parse_votes, h1]
        dsimp only
        rw [if_pos hd]
      · rw [parse_votes, h2]
        dsimp only
        rw [if_pos (hany ▸ hd)]
    · refine Or.inr ⟨vs, vs', ?_, ?_, hp⟩
      · rw [parse_votes, h1]
        dsimp only
        rw [if_neg hd]
      · rw [parse_votes, h2]
        dsimp only
        rw [if_neg (hany ▸ hd)]

theorem as_unranked_perm {V V' : WeightedRankedVote} (h : V.Perm V') :
    (as_unranked_votes V = .error .ambiguousErr
      ∧ as_unranked_votes V' = .error .ambiguousErr) ∨
    ∃ u u', as_unranked_votes V = .ok u ∧ as_unranked_votes V' = .ok u' ∧ u.Perm u' := by
  rw [as_unranked_votes, as_unranked_votes, any_perm _ h]
  by_cases hd : V'.any fun x => decide (1 < (x.1.filter fun y => y.2 == 0).length)
  · rw [if_pos hd, if_pos hd]
    exact Or.inl ⟨rfl, rfl⟩
  · rw [if_neg hd, if_neg hd]
    exact Or.inr ⟨_, _, rfl, rfl, (h.filter _).map _⟩

theorem allCandidates_perm {V V' : WeightedRankedVote} (h : V.Perm V') :
    (allCandidates V).Perm (allCandidates V') := by
  rw [allCandidates, allCandidates]
  exact ((h.map _).flatten).dedup

theorem pluralityCount_perm {u u' : WeightedUnrankedVote} (h : u.Perm u') :
    pluralityCount u = pluralityCount u' := by
  funext c
  rw [pluralityCount, pluralityCount, ((h.filter _).map Prod.snd).sum_eq]

theorem totalWeightMod_perm {u u' : WeightedUnrankedVote} (h : u.Perm u') :
    totalWeightMod u = totalWeightMod u' := by
  funext c
  rw [totalWeightMod, totalWeightMod, ((h.filter _).map Prod.snd).sum_eq]

theorem map_ok_ne_error (o : Option Ranking) (e : Err) :
    o.map Except.ok ≠ some (Except.error e) := by
  cases o <;> simp

/-- C5 as stated is false: reordering the lines permutes the canonical
candidate list handed to the hash containers, so with the same incidental
iteration order the Schulze tally lists the tied candidates `A`, `B` in a
different order. -/
theorem c5_counterexample :
    ¬ (∀ (raw raw' m : String) hs gen,
        (∀ l, (hs l).Perm l) → (linesOf raw).Perm (linesOf raw') →
        vote raw m hs gen = vote raw' m hs gen) := by
  intro h
  have := h "A\nB" "B\nA" "Schulze Winning" id (fun _ _ => 1)
    (fun l => List.Perm.refl l) (by decide)
  exact absurd this (by decide)

/-- C5 amended: reordering the vote lines never changes which error is
returned, and changes a successful Plurality or Schulze ranking at most by
reordering candidates of equal rank (the same pairs appear); the Weighted
Random lottery keeps the same per-candidate consolidated weights and hence
the same output distribution. -/
theorem c5_amended :
    ∀ (raw raw' m : String) hs gen gen',
      (∀ l, (hs l).Perm l) → (linesOf raw).Perm (linesOf raw') →
      ((m = "Plurality" ∨ m = "Schulze Winning") →
        OutcomeRel (vote raw m hs gen) (vote raw' m hs gen'))
      ∧ (∀ e, vote raw "Weighted Random" hs gen = some (.error e) ↔
          vote raw' "Weighted Random" hs gen' = some (.error e))
      ∧ wrDist raw = wrDist raw' := by
  intro raw raw' m hs gen gen' hhs hperm
  rcases parse_votes_perm hperm with ⟨e, h1, h2⟩ | ⟨V, V', h1, h2, hV⟩
  · refine ⟨fun _ => ?_, fun e' => ?_, ?_⟩
    · rw [vote_err m hs gen h1, vote_err m hs gen' h2]
      exact rfl
    · rw [vote_err _ hs gen h1, vote_err _ hs gen' h2]
    · rw [wrDist, wrDist, h1, h2]
  · have hkeys : ∀ {u u' : WeightedUnrankedVote}, u.Perm u' →
        (hs ((u.map Prod.fst).dedup)).Perm (hs ((u'.map Prod.fst).dedup)) :=
      fun hu => (hhs _).trans ((hu.map Prod.fst).dedup.trans (hhs _).symm)
    refine ⟨?_, ?_, ?_⟩
    · rintro (rfl | rfl)
      · rw [vote_plurality_eq hs gen h1, vote_plurality_eq hs gen' h2]
        rcases as_unranked_perm hV with ⟨hu1, hu2⟩ | ⟨u, u', hu1, hu2, hu⟩
        · rw [hu1, hu2]
          exact rfl
        · rw [hu1, hu2]
          show (plurality u (candidates_from_votes V hs) hs).Perm
            (plurality u' (candidates_from_votes V' hs) hs)
          simp only [plurality]
          rw [pluralityCount_perm hu]
          exact pluralityCore_perm _ (hkeys hu)
      · rw [vote_schulze_eq hs gen h1, vote_schulze_eq hs gen' h2]
        exact outcome_of_tally
          (schulze_rel hV ((hhs _).trans ((allCandidates_perm hV).trans (hhs _).symm)))
    · intro e
      rw [vote_wr_eq hs gen h1, vote_wr_eq hs gen' h2]
      rcases as_unranked_perm hV with ⟨hu1, hu2⟩ | ⟨u, u', hu1, hu2, hu⟩
      · rw [hu1, hu2]
      · rw [hu1, hu2]
        exact iff_of_false (map_ok_ne_error _ e) (map_ok_ne_error _ e)
    · rw [wrDist, wrDist, h1, h2]
      dsimp only
      rcases as_unranked_perm hV with ⟨hu1, hu2⟩ | ⟨u, u', hu1, hu2, hu⟩
      · rw [hu1, hu2]
      · rw [hu1, hu2]
        dsimp only
        rw [totalWeightMod_perm hu,
          Multiset.coe_eq_coe.mpr ((hu.map Prod.fst).dedup)]

/-- Witness instantiating C5's amended statement on the two-line reversal. -/
theorem c5_amended_witness :
    OutcomeRel (vote "A\nB" "Schulze Winning" id (fun _ _ => 1))
      (vote "B\nA" "Schulze Winning" id (fun _ _ => 1))
    ∧ wrDist "A\nB" = wrDist "B\nA" := by
  have h := c5_amended "A\nB" "B\nA" "Schulze Winning" id (fun _ _ => 1) (fun _ _ => 1)
    (fun l => List.Perm.refl l) (by decide)
  exact ⟨h.1 (Or.inr rfl), h.2.2⟩

/-! ## C4: weight multiplier -/

theorem dedup_middle_cons {α : Type} [DecidableEq α] (x : α) :
    ∀ (xs ys : List α), (xs ++ x :: x :: ys).dedup = (xs ++ x :: ys).dedup := by
  intro xs
  induction xs with
  | nil =>
    intro ys
    exact List.dedup_cons_of_mem (List.mem_cons_self x ys)
  | cons a xs ih =>
    intro ys
    by_cases hm : a ∈ xs ++ x :: ys
    · have hm' : a ∈ xs ++ x :: x :: ys := by
        simp only [List.mem_append, List.mem_cons] at hm ⊢
        tauto
      rw [List.cons_append, List.cons_append, List.dedup_cons_of_mem hm',
        List.dedup_cons_of_mem hm, ih]
    · have hm' : a ∉ xs ++ x :: x :: ys := by
        simp only [List.mem_append, List.mem_cons] at hm ⊢
        tauto
      rw [List.cons_append, List.cons_append, List.dedup_cons_of_not_mem hm',
        List.dedup_cons_of_not_mem hm, ih]

theorem dedup_middle_replicate {α : Type} [DecidableEq α] (x : α) :
    ∀ (n : Nat) (xs ys : List α), 1 ≤ n →
      (xs ++ (List.replicate n x ++ ys)).dedup = (xs ++ x :: ys).dedup := by
  intro n
  induction n with
  | zero => intro xs ys h; exact absurd h (by omega)
  | succ m ih =>
    intro xs ys _
    cases m with
    | zero => rfl
    | succ k =>
      have h1 : xs ++ (List.replicate (k + 2) x ++ ys)
          = xs ++ x :: x :: (List.replicate k x ++ ys) := rfl
      have h2 : xs ++ x :: (List.replicate k x ++ ys)
          = xs ++ (List.replicate (k + 1) x ++ ys) := rfl
      rw [h1, dedup_middle_cons, h2, ih xs ys (by omega)]

theorem wsum_middle {α : Type} (p : α → Bool) (pre post : List (α × Nat)) (v : α) (n : Nat) :
    (((pre ++ (v, n) :: post).filter fun vw : α × Nat => p vw.1).map Prod.snd).sum
      = (((pre ++ (List.replicate n (v, 1) ++ post)).filter fun vw : α × Nat => p vw.1).map
          Prod.snd).sum := by
  simp only [List.filter_append, List.map_append, List.sum_append, List.filter_cons,
    List.filter_replicate, List.map_replicate, List.sum_replicate, List.map_cons,
    List.sum_cons]
  by_cases hp : p v
  · simp [hp, smul_eq_mul]
  · simp [hp]

theorem any_middle {α : Type} (p : α → Bool) (pre post : List (α × Nat)) (v : α)
    {n : Nat} (hn : 1 ≤ n) :
    ((pre ++ (v, n) :: post).any fun vw : α × Nat => p vw.1)
      = ((pre ++ (List.replicate n (v, 1) ++ post)).any fun vw : α × Nat => p vw.1) := by
  simp only [List.any_append, List.any_cons, List.any_replicate]
  rw [if_neg (by omega)]

theorem dMat_mult (pre post : WeightedRankedVote) (v : RankedVote) (n : Nat) :
    dMat (pre ++ (v, n) :: post) = dMat (pre ++ (List.replicate n (v, 1) ++ post)) := by
  funext a b
  have h := wsum_middle (fun rv => decide (tierOf rv a < tierOf rv b)) pre post v n
  rw [dMat, dMat]
  exact congrArg (fun t => t % U32) h

theorem pInit_congr {V V' : WeightedRankedVote} (h : dMat V = dMat V') :
    pInit V = pInit V' := by
  funext a b
  rw [pInit, pInit, h]

theorem schulzeOk_congr {V V' : WeightedRankedVote} (cands : List String)
    (h : dMat V = dMat V') : schulzeOk V cands = schulzeOk V' cands := by
  have hr : schulzeRank V cands = schulzeRank V' cands := by
    funext c
    rw [schulzeRank, schulzeRank, pMat, pMat, pInit_congr h]
  rw [schulzeOk, schulzeOk, hr]

theorem schulze_mult (pre post : WeightedRankedVote) (v : RankedVote) {n : Nat}
    (hn : 1 ≤ n) (cands : List String) :
    schulze (pre ++ (v, n) :: post) cands
      = schulze (pre ++ (List.replicate n (v, 1) ++ post)) cands := by
  rw [schulze, schulze, any_middle (fun rv : RankedVote => hasDup rv) pre post v hn,
    schulzeOk_congr cands (dMat_mult pre post v n)]

theorem as_unranked_mult (pre post : WeightedRankedVote) (v : RankedVote) {n : Nat}
    (hn : 1 ≤ n) :
    (∃ e, as_unranked_votes (pre ++ (v, n) :: post) = .error e
      ∧ as_unranked_votes (pre ++ (List.replicate n (v, 1) ++ post)) = .error e) ∨
    (∃ u u', as_unranked_votes (pre ++ (v, n) :: post) = .ok u
      ∧ as_unranked_votes (pre ++ (List.replicate n (v, 1) ++ post)) = .ok u'
      ∧ pluralityCount u = pluralityCount u'
      ∧ totalWeightMod u = totalWeightMod u'
      ∧ (u.map Prod.fst).dedup = (u'.map Prod.fst).dedup) := by
  have hany := any_middle
    (fun rv : RankedVote => decide (1 < (rv.filter fun y => y.2 == 0).length))
    pre post v hn
  rw [as_unranked_votes, as_unranked_votes]
  by_cases hd : (pre ++ (v, n) :: post).any
      fun x => decide (1 < (x.1.filter fun y => y.2 == 0).length)
  · rw [if_pos hd, if_pos (hany ▸ hd)]
    exact Or.inl ⟨.ambiguousErr, rfl, rfl⟩
  · rw [if_neg hd, if_neg (hany ▸ hd)]
    refine Or.inr ⟨_, _, rfl, rfl, ?_⟩
    by_cases hv : v.isEmpty
    · have e1 : ((pre ++ (v, n) :: post).filter fun x : RankedVote × Nat => !x.1.isEmpty)
          = ((pre ++ (List.replicate n (v, 1) ++ post)).filter fun x : RankedVote × Nat => !x.1.isEmpty) := by
        simp only [List.filter_append, List.filter_cons, List.filter_replicate]
        simp [hv]
      rw [e1]
      exact ⟨rfl, rfl, rfl⟩
    · have e1 : ((pre ++ (v, n) :: post).filter fun x : RankedVote × Nat => !x.1.isEmpty).map
            (fun x : RankedVote × Nat => ((firstChoices x.1).headD "", x.2))
          = ((pre.filter fun x : RankedVote × Nat => !x.1.isEmpty).map
              fun x : RankedVote × Nat => ((firstChoices x.1).headD "", x.2))
            ++ (((firstChoices v).headD "", n)
              :: ((post.filter fun x : RankedVote × Nat => !x.1.isEmpty).map
                fun x : RankedVote × Nat => ((firstChoices x.1).headD "", x.2))) := by
        simp only [List.filter_append, List.map_append, List.filter_cons]
        simp [hv]
      have e2 : ((pre ++ (List.replicate n (v, 1) ++ post)).filter
            fun x : RankedVote × Nat => !x.1.isEmpty).map (fun x : RankedVote × Nat => ((firstChoices x.1).headD "", x.2))
          = ((pre.filter fun x : RankedVote × Nat => !x.1.isEmpty).map
              fun x : RankedVote × Nat => ((firstChoices x.1).headD "", x.2))
            ++ (List.replicate n ((firstChoices v).headD "", 1)
              ++ ((post.filter fun x : RankedVote × Nat => !x.1.isEmpty).map
                fun x : RankedVote × Nat => ((firstChoices x.1).headD "", x.2))) := by
        simp only [List.filter_append, List.map_append, List.filter_replicate,
          List.map_replicate]
        simp [hv]
      rw [e1, e2]
      refine ⟨?_, ?_, ?_⟩
      · funext c
        rw [pluralityCount, pluralityCount]
        exact wsum_middle (fun name : String => name == c) _ _ _ n
      · funext c
        rw [totalWeightMod, totalWeightMod]
        exact congrArg (fun t => t % U32)
          (wsum_middle (fun name : String => name == c) _ _ _ n)
      · rw [List.map_append, List.map_cons, List.map_append, List.map_append,
          List.map_replicate]
        exact (dedup_middle_replicate _ n _ _ hn).symm

/-- C4: a ballot line carrying the weight suffix `* N` tallies identically
to `N` copies of the same line with weight 1: the Schulze result is equal;
the unranked projection fails identically or yields votes with equal
plurality counts, an identical consolidated pool, and an identical lottery
run for every random source; and at the text level `X * 5` and five `X`
lines give the same vote result for every method string. -/
theorem c4_weight_multiplier :
    (∀ (pre post : WeightedRankedVote) (v : RankedVote) (n : Nat), 1 ≤ n →
      ∀ (cands : List String) (hs : List String → List String) (gen : Nat → Nat → Nat),
        schulze (pre ++ (v, n) :: post) cands
          = schulze (pre ++ (List.replicate n (v, 1) ++ post)) cands
        ∧ ((∃ e, as_unranked_votes (pre ++ (v, n) :: post) = .error e
            ∧ as_unranked_votes (pre ++ (List.replicate n (v, 1) ++ post)) = .error e)
          ∨ (∃ u u', as_unranked_votes (pre ++ (v, n) :: post) = .ok u
            ∧ as_unranked_votes (pre ++ (List.replicate n (v, 1) ++ post)) = .ok u'
            ∧ plurality u cands hs = plurality u' cands hs
            ∧ consolidate_unranked_votes u hs = consolidate_unranked_votes u' hs
            ∧ weighted_random u hs gen = weighted_random u' hs gen)))
    ∧ (∀ (m : String) (hs : List String → List String) (gen : Nat → Nat → Nat),
        vote "X * 5" m hs gen = vote "X\nX\nX\nX\nX" m hs gen) := by
  have hwr : ∀ (u u' : WeightedUnrankedVote) (hs : List String → List String),
      totalWeightMod u = totalWeightMod u' →
      (u.map Prod.fst).dedup = (u'.map Prod.fst).dedup →
      consolidate_unranked_votes u hs = consolidate_unranked_votes u' hs := by
    intro u u' hs ht hdd
    rw [consolidate_unranked_votes, consolidate_unranked_votes, ht, hdd]
  constructor
  · intro pre post v n hn cands hs gen
    refine ⟨schulze_mult pre post v hn cands, ?_⟩
    rcases as_unranked_mult pre post v hn with ⟨e, h1, h2⟩ | ⟨u, u', h1, h2, hc, ht, hdd⟩
    · exact Or.inl ⟨e, h1, h2⟩
    · refine Or.inr ⟨u, u', h1, h2, ?_, hwr u u' hs ht hdd, ?_⟩
      · simp only [plurality]
        rw [hc, hdd]
      · simp only [weighted_random]
        rw [hwr u u' hs ht hdd]
  · intro m hs gen
    have hp1 : parse_votes "X * 5" = .ok [([("X", 0)], 5)] := by decide
    have hp2 : parse_votes "X\nX\nX\nX\nX" = .ok (List.replicate 5 ([("X", 0)], 1)) := by
      decide
    unfold vote
    rw [hp1, hp2]
    dsimp only
    have hc1 : candidates_from_votes [([("X", 0)], 5)] hs = hs ["X"] := rfl
    have hc2 : candidates_from_votes (List.replicate 5 ([("X", 0)], 1)) hs = hs ["X"] := rfl
    rw [hc1, hc2]
    cases hm : methodFromStr m with
    | error e => rfl
    | ok mm =>
      cases mm with
      | schulzeWinning =>
        dsimp only
        have hs5 : schulze [([("X", 0)], 5)] (hs ["X"])
            = schulze (List.replicate 5 ([("X", 0)], 1)) (hs ["X"]) :=
          schulze_mult [] [] [("X", 0)] (n := 5) (by omega) (hs ["X"])
        rw [hs5]
      | plurality =>
        dsimp only
        rcases as_unranked_mult [] [] [("X", 0)] (n := 5) (by omega) with
          ⟨e, h1, h2⟩ | ⟨u, u', h1, h2, hc, ht, hdd⟩ <;>
          simp only [List.nil_append, List.append_nil] at h1 h2
        · rw [h1, h2]
        · rw [h1, h2]
          dsimp only
          have : plurality u (hs ["X"]) hs = plurality u' (hs ["X"]) hs := by
            simp only [plurality]
            rw [hc, hdd]
          rw [this]
      | weightedRandom =>
        dsimp only
        rcases as_unranked_mult [] [] [("X", 0)] (n := 5) (by omega) with
          ⟨e, h1, h2⟩ | ⟨u, u', h1, h2, hc, ht, hdd⟩ <;>
          simp only [List.nil_append, List.append_nil] at h1 h2
        · rw [h1, h2]
        · rw [h1, h2]
          dsimp only
          have : weighted_random u hs gen = weighted_random u' hs gen := by
            simp only [weighted_random]
            rw [hwr u u' hs ht hdd]
          rw [this]

/-- Witness instantiating C4 at a concrete vote list and at the Plurality
method string. -/
theorem c4_weight_multiplier_witness :
    (schulze [([("A", 0)], 3)] ["A"] = schulze (List.replicate 3 ([("A", 0)], 1)) ["A"])
    ∧ vote "X * 5" "Plurality" id (fun _ _ => 1)
        = vote "X\nX\nX\nX\nX" "Plurality" id (fun _ _ => 1) := by
  constructor
  · exact (c4_weight_multiplier.1 [] [] [("A", 0)] 3 (by omega) ["A"] id
      (fun _ _ => 1)).1
  · exact c4_weight_multiplier.2 "Plurality" id (fun _ _ => 1)

/-! ## C6: single-candidate input -/

theorem dedup_const {α : Type} [DecidableEq α] (c : α) :
    ∀ l : List α, (∀ x ∈ l, x = c) → l ≠ [] → l.dedup = [c] := by
  intro l
  induction l with
  | nil => intro _ h; exact absurd rfl h
  | cons a tail ih =>
    intro hall _
    have ha : a = c := hall a (by simp)
    subst ha
    cases tail with
    | nil => rfl
    | cons b tb =>
      have hb : b = a := hall b (by simp) ▸ (hall a (by simp))
      rw [List.dedup_cons_of_mem (by rw [hall b (by simp)] at hb ⊢; exact hb ▸ List.mem_cons_self _ _)]
      exact ih (fun x hx => hall x (List.mem_cons_of_mem _ hx)) (by simp)

theorem sum_ge_one {l : List Nat} (hne : l ≠ []) (hall : ∀ x ∈ l, 1 ≤ x) :
    1 ≤ l.sum := by
  cases l with
  | nil => exact absurd rfl hne
  | cons a tl =>
    have := hall a (by simp)
    rw [List.sum_cons]
    omega

theorem mem_allCandidates {V : WeightedRankedVote} {vw : RankedVote × Nat}
    {p : String × Nat} (hvw : vw ∈ V) (hp : p ∈ vw.1) : p.1 ∈ allCandidates V := by
  rw [allCandidates, List.mem_dedup]
  exact List.mem_flatten.mpr ⟨vw.1.map Prod.fst, List.mem_map.mpr ⟨vw, hvw, rfl⟩,
    List.mem_map.mpr ⟨p, hp, rfl⟩⟩

theorem allCandidates_mem_exists {V : WeightedRankedVote} {c : String}
    (h : c ∈ allCandidates V) : ∃ vw ∈ V, ∃ p ∈ vw.1, p.1 = c := by
  rw [allCandidates, List.mem_dedup] at h
  obtain ⟨l, hl, hc⟩ := List.mem_flatten.mp h
  obtain ⟨vw, hvw, rfl⟩ := List.mem_map.mp hl
  obtain ⟨p, hp, hpc⟩ := List.mem_map.mp hc
  exact ⟨vw, hvw, p, hp, hpc⟩

theorem c6_votes_shape {raw : String} {V : WeightedRankedVote} {c : String}
    (hV : parse_votes raw = .ok V) (hall : allCandidates V = [c]) :
    ∀ vw ∈ V, vw.1 = [] ∨ vw.1 = [(c, 0)] := by
  intro vw hm
  have hnames : ∀ p ∈ vw.1, p.1 = c := by
    intro p hp
    have := mem_allCandidates hm hp
    rw [hall] at this
    simpa using this
  rcases parse_votes_first_tier hV vw hm with h0 | ⟨c', rest, hsh⟩
  · exact Or.inl h0
  · right
    have hc' : c' = c := by
      have := hnames (c', 0) (by rw [hsh]; simp)
      simpa using this
    subst hc'
    have hnd := parse_votes_nodup hV vw hm
    rw [hsh] at hnd ⊢
    cases rest with
    | nil => rfl
    | cons q qs =>
      exfalso
      rw [hasDup] at hnd
      have hmap : ∀ x ∈ (((c', 0) :: q :: qs : RankedVote).map Prod.fst), x = c' := by
        intro x hx
        obtain ⟨p, hp, rfl⟩ := List.mem_map.mp hx
        exact hnames p (by rw [hsh]; exact hp)
      have hdd : (((c', 0) :: q :: qs : RankedVote).map Prod.fst).dedup = [c'] :=
        dedup_const c' _ hmap (by simp)
      rw [hdd] at hnd
      simp at hnd

theorem wrLoop_nil (gen : Nat → Nat → Nat) :
    ∀ fuel round, wrLoop gen fuel round [] = some [] := by
  intro fuel round
  cases fuel <;> rfl

theorem wrLoop_singleton (gen : Nat → Nat → Nat) (c : String) (W round fuel : Nat)
    (h1 : 1 ≤ W) (h2 : W ≤ U32 - 2)
    (hg : 1 ≤ gen round W ∧ gen round W ≤ W) :
    wrLoop gen (fuel + 1) round [(c, W)] = some [c] := by
  have hU : (4 : Nat) ≤ U32 := by norm_num [U32]
  have hWlt : W < U32 := by omega
  rw [wrLoop, if_neg (by simp)]
  dsimp only
  simp only [List.map_cons, List.map_nil, List.sum_cons, List.sum_nil, Nat.add_zero]
  rw [Nat.mod_eq_of_lt hWlt, Nat.mod_eq_of_lt (by omega : W + 1 < U32),
    if_neg (by omega : ¬ (W + 1 ≤ 1))]
  have hroll : drawIndex (gen round W) [(c, W)] = some 0 := by
    rw [drawIndex, if_pos hg.2]
  rw [hroll]
  dsimp only
  have hswap : swapRemove [(c, W)] 0 = [] := rfl
  rw [hswap, wrLoop_nil]
  rfl

/-- C6 as stated is false: with a single candidate whose `u32` weights sum
to a multiple of `2^32`, the consolidated weight wraps to zero and the
weighted-random lottery builds the empty range `1..1`, a panic — no
ranking is returned.  Two weight-`2^31` lines for the one candidate `X`
are a counterexample. -/
theorem c6_counterexample :
    parse_votes "X * 2147483648\nX * 2147483648"
      = .ok [([("X", 0)], 2147483648), ([("X", 0)], 2147483648)]
    ∧ allCandidates [([("X", 0)], 2147483648), ([("X", 0)], 2147483648)] = ["X"]
    ∧ vote "X * 2147483648\nX * 2147483648" "Weighted Random" id (fun _ _ => 1) = none :=
  ⟨by decide, by decide, by decide⟩

/-- C6 amended: an input whose candidate set is the single candidate `c`
returns exactly `[(c, 0)]` under Plurality and Schulze Winning (the
Schulze tally short-circuiting without pairwise computation); under
Weighted Random it does so for every in-range random draw provided the
wrapped `u32` total first-choice weight is between 1 and `2^32 - 2`. -/
theorem c6_amended :
    ∀ (raw : String) (V : WeightedRankedVote) (c : String)
      (hs : List String → List String) (gen : Nat → Nat → Nat),
      parse_votes raw = .ok V → allCandidates V = [c] →
      (∀ l, (hs l).Perm l) →
      (∀ r s, 1 ≤ s → 1 ≤ gen r s ∧ gen r s ≤ s) →
      vote raw "Plurality" hs gen = some (.ok [(c, 0)])
      ∧ vote raw "Schulze Winning" hs gen = some (.ok [(c, 0)])
      ∧ (∀ u, as_unranked_votes V = .ok u →
          1 ≤ (u.map Prod.snd).sum % U32 → (u.map Prod.snd).sum % U32 ≤ U32 - 2 →
          vote raw "Weighted Random" hs gen = some (.ok [(c, 0)])) := by
  intro raw V c hs gen hV hall hhs hgen
  have hshape := c6_votes_shape hV hall
  have hwt := parse_votes_weight_pos hV
  -- the unranked projection succeeds
  have hnoamb : (V.any fun x => decide (1 < (x.1.filter fun y => y.2 == 0).length))
      = false := by
    rw [List.any_eq_false]
    intro vw hm
    rcases hshape vw hm with h | h <;> simp [h]
  have hu : as_unranked_votes V = .ok ((V.filter fun x => !x.1.isEmpty).map
      fun x => ((firstChoices x.1).headD "", x.2)) := by
    rw [as_unranked_votes, if_neg (by simp [hnoamb])]
  -- facts about the projected votes
  have huall : ∀ x ∈ ((V.filter fun x => !x.1.isEmpty).map
      fun x => ((firstChoices x.1).headD "", x.2)), x.1 = c ∧ 1 ≤ x.2 := by
    intro x hx
    obtain ⟨vw, hvw, rfl⟩ := List.mem_map.mp hx
    have hmem := List.mem_of_mem_filter hvw
    have hpos := List.of_mem_filter hvw
    rcases hshape vw hmem with h0 | h1
    · rw [h0] at hpos; cases hpos
    · exact ⟨by rw [h1]; rfl, hwt vw hmem⟩
  have hune : ((V.filter fun x => !x.1.isEmpty).map
      fun x => ((firstChoices x.1).headD "", x.2)) ≠ [] := by
    have hc : c ∈ allCandidates V := by rw [hall]; simp
    obtain ⟨vw, hvw, p, hp, _⟩ := allCandidates_mem_exists hc
    have hne : vw.1 ≠ [] := by
      intro hcon
      rw [hcon] at hp
      cases hp
    have : vw ∈ V.filter fun x => !x.1.isEmpty :=
      List.mem_filter.mpr ⟨hvw, by simpa using hne⟩
    intro hcon
    rw [List.map_eq_nil_iff] at hcon
    rw [hcon] at this
    cases this
  set u := ((V.filter fun x => !x.1.isEmpty).map
      fun x => ((firstChoices x.1).headD "", x.2)) with hudef
  have hdd : (u.map Prod.fst).dedup = [c] := by
    refine dedup_const c _ ?_ (by simpa using hune)
    intro x hx
    obtain ⟨p, hp, rfl⟩ := List.mem_map.mp hx
    exact (huall p hp).1
  have hkeys : hs ((u.map Prod.fst).dedup) = [c] := by
    rw [hdd]
    exact List.perm_singleton.mp (hhs [c])
  have hfilter : u.filter (fun x => x.1 == c) = u :=
    List.filter_eq_self.mpr fun x hx => by simp [(huall x hx).1]
  have hcnt1 : 1 ≤ pluralityCount u c := by
    rw [pluralityCount, hfilter]
    refine sum_ge_one (by simpa using hune) ?_
    intro w hw
    obtain ⟨p, hp, rfl⟩ := List.mem_map.mp hw
    exact (huall p hp).2
  have hcands : candidates_from_votes V hs = [c] := by
    rw [candidates_from_votes, hall]
    exact List.perm_singleton.mp (hhs [c])
  refine ⟨?_, ?_, ?_⟩
  · rw [vote_plurality_eq hs gen hV, hu]
    show some (Except.ok (plurality u (candidates_from_votes V hs) hs))
      = some (Except.ok [(c, 0)])
    simp only [plurality]
    rw [hkeys, pluralityCore]
    have hpres : ([c].filter fun x => decide (0 < pluralityCount u x)) = [c] := by
      rw [List.filter_cons_of_pos (by simpa using hcnt1)]
      rfl
    simp only [hpres]
    have hsort : ([c].insertionSort fun a b => pluralityCount u b ≤ pluralityCount u a)
        = [c] := rfl
    rw [hsort]
    simp [List.countP_cons, Nat.lt_irrefl]
  · rw [vote_schulze_eq hs gen hV, hcands, schulze,
      if_pos (show ([c] : List String).length = 1 from rfl)]
    rfl
  · intro u' hu' hw1 hw2
    have huu : u' = u := by
      rw [hu] at hu'
      cases hu'
      rfl
    subst huu
    rw [vote_wr_eq hs gen hV, hu]
    show (weighted_random u hs gen).map Except.ok = some (Except.ok [(c, 0)])
    have hpool : consolidate_unranked_votes u hs
        = [(c, (u.map Prod.snd).sum % U32)] := by
      rw [consolidate_unranked_votes, hkeys, List.map_cons, List.map_nil,
        totalWeightMod, hfilter]
    rw [weighted_random]
    simp only [hpool]
    have hrun : wrLoop gen
        (([(c, (u.map Prod.snd).sum % U32)] : List (String × Nat)).length) 0
        [(c, (u.map Prod.snd).sum % U32)] = some [c] :=
      wrLoop_singleton gen c _ 0 0 hw1 hw2 (hgen 0 _ hw1)
    rw [hrun]
    rfl

/-- Witness instantiating C6's amended statement on a small input. -/
theorem c6_amended_witness :
    vote "X\nX * 2" "Plurality" id (fun _ _ => 1) = some (.ok [("X", 0)])
    ∧ vote "X\nX * 2" "Schulze Winning" id (fun _ _ => 1) = some (.ok [("X", 0)])
    ∧ vote "X\nX * 2" "Weighted Random" id (fun _ _ => 1) = some (.ok [("X", 0)]) := by
  have h := c6_amended "X\nX * 2" [([("X", 0)], 1), ([("X", 0)], 2)] "X" id
    (fun _ _ => 1) (by decide) (by decide) (fun l => List.Perm.refl l)
    (fun r s h1 => ⟨Nat.le_refl 1, h1⟩)
  exact ⟨h.1, h.2.1, h.2.2 [("X", 1), ("X", 2)] (by decide) (by decide) (by decide)⟩

/-! ## C10: lottery loop safety -/

theorem drawIndex_lands : ∀ (pool : List (String × Nat)) (roll : Nat),
    1 ≤ roll → roll ≤ (pool.map Prod.snd).sum →
    ∃ i, drawIndex roll pool = some i ∧ i < pool.length := by
  intro pool
  induction pool with
  | nil =>
    intro roll h1 h2
    simp at h2
    omega
  | cons x rest ih =>
    intro roll h1 h2
    by_cases hx : roll ≤ x.2
    · exact ⟨0, by rw [drawIndex, if_pos hx], by simp⟩
    · rw [List.map_cons, List.sum_cons] at h2
      obtain ⟨i, hdi, hlt⟩ := ih (roll - x.2) (by omega) (by omega)
      refine ⟨i + 1, ?_, by simpa using hlt⟩
      rw [drawIndex, if_neg hx, hdi]
      rfl

theorem perm_getD_cons_eraseIdx {α : Type} (d : α) :
    ∀ (l : List α) (i : Nat), i < l.length → l.Perm (l.getD i d :: l.eraseIdx i) := by
  intro l
  induction l with
  | nil => intro i h; simp at h
  | cons x xs ih =>
    intro i hi
    cases i with
    | zero => exact List.Perm.refl _
    | succ j =>
      have hj : j < xs.length := by simpa using hi
      exact ((ih j hj).cons x).trans (List.Perm.swap _ _ _)

theorem getLastD_default_irrel {α : Type} :
    ∀ (l : List α), l ≠ [] → ∀ (d d' : α), l.getLastD d = l.getLastD d' := by
  intro l hne d d'
  cases l with
  | nil => exact absurd rfl hne
  | cons b tb => rw [List.getLastD_cons, List.getLastD_cons]

theorem getLastD_eq_getLast {α : Type} :
    ∀ (l : List α) (hne : l ≠ []) (d : α), l.getLastD d = l.getLast hne := by
  intro l
  induction l with
  | nil => intro h; exact absurd rfl h
  | cons a tl ih =>
    intro hne d
    cases tl with
    | nil => rfl
    | cons b tb =>
      rw [List.getLastD_cons, List.getLast_cons (by simp)]
      exact ih (by simp) a

theorem swapRemove_perm : ∀ (l : List (String × Nat)) (i : Nat), i < l.length →
    (swapRemove l i).Perm (l.eraseIdx i) := by
  intro l
  induction l with
  | nil => intro i h; simp at h
  | cons x xs ih =>
    intro i hi
    cases i with
    | zero =>
      cases xs with
      | nil => exact List.Perm.refl _
      | cons y ys =>
        have hne : (y :: ys : List (String × Nat)) ≠ [] := by simp
        have hgl : (x :: y :: ys : List (String × Nat)).getLastD ("", 0)
            = (y :: ys).getLast hne := by
          rw [List.getLastD_cons]
          exact getLastD_eq_getLast (y :: ys) hne x
        have hset : swapRemove (x :: y :: ys) 0
            = (y :: ys).getLast hne :: (y :: ys).dropLast := by
          rw [swapRemove, hgl]
          exact List.dropLast_cons_of_ne_nil hne
        rw [hset]
        show ((y :: ys).getLast hne :: (y :: ys).dropLast).Perm (y :: ys)
        have happ := List.dropLast_append_getLast hne
        have hperm := List.perm_append_singleton ((y :: ys).getLast hne) ((y :: ys).dropLast)
        have hfin : ((y :: ys).dropLast ++ [(y :: ys).getLast hne]).Perm (y :: ys) := by
          rw [happ]
        exact hperm.symm.trans hfin
    | succ j =>
      have hxs : xs ≠ [] := by
        intro h
        subst h
        simp at hi
      have hj : j < xs.length := by simpa using hi
      have h1 : swapRemove (x :: xs) (j + 1) = x :: swapRemove xs j := by
        rw [swapRemove, swapRemove]
        rw [show (x :: xs : List (String × Nat)).getLastD ("", 0) = xs.getLastD ("", 0) from
          (List.getLastD_cons _ _ _).trans (getLastD_default_irrel xs hxs x ("", 0))]
        have hset_ne : xs.set j (xs.getLastD ("", 0)) ≠ [] := by
          intro hcon
          have := congrArg List.length hcon
          rw [List.length_set] at this
          exact hxs (List.length_eq_zero.mp this)
        exact List.dropLast_cons_of_ne_nil hset_ne
      rw [h1]
      exact (ih j hj).cons x

theorem counts_sum_le : ∀ (keys : List String) (votes : List (String × Nat)),
    keys.Nodup →
    (keys.map fun c => ((votes.filter fun x => x.1 == c).map Prod.snd).sum).sum
      ≤ (votes.map Prod.snd).sum := by
  intro keys
  induction keys with
  | nil => intro votes _; simp
  | cons c rest ih =>
    intro votes hnd
    rw [List.map_cons, List.sum_cons]
    have hsplit : ((votes.filter fun x => x.1 == c).map Prod.snd).sum
        + ((votes.filter fun x => !(x.1 == c)).map Prod.snd).sum
        = (votes.map Prod.snd).sum := by
      have hp := List.filter_append_perm (fun x : String × Nat => x.1 == c) votes
      calc ((votes.filter fun x => x.1 == c).map Prod.snd).sum
            + ((votes.filter fun x => !(x.1 == c)).map Prod.snd).sum
          = (((votes.filter fun x => x.1 == c)
              ++ (votes.filter fun x => !(x.1 == c))).map Prod.snd).sum := by
            rw [List.map_append, List.sum_append]
        _ = (votes.map Prod.snd).sum := (hp.map Prod.snd).sum_eq
    have hrest : (rest.map fun k =>
          ((votes.filter fun x => x.1 == k).map Prod.snd).sum).sum
        = (rest.map fun k => (((votes.filter fun x => !(x.1 == c)).filter
            fun x => x.1 == k).map Prod.snd).sum).sum := by
      have hmc : c ∉ rest := (List.nodup_cons.mp hnd).1
      refine congrArg List.sum (List.map_congr_left ?_)
      intro k hk
      have hkc : k ≠ c := by
        intro h
        subst h
        exact hmc hk
      rw [List.filter_filter]
      refine congrArg (fun l : List (String × Nat) => (l.map Prod.snd).sum)
        (List.filter_congr ?_)
      intro x _
      by_cases hxk : x.1 = k
      · simp [hxk, hkc]
      · simp [hxk]
    rw [hrest]
    have hih := ih (votes.filter fun x => !(x.1 == c)) (List.nodup_cons.mp hnd).2
    omega

theorem wrLoop_ok (gen : Nat → Nat → Nat)
    (hgen : ∀ r s, 1 ≤ s → 1 ≤ gen r s ∧ gen r s ≤ s) :
    ∀ (fuel : Nat) (pool : List (String × Nat)) (round : Nat),
      pool.length = fuel →
      (∀ x ∈ pool, 1 ≤ x.2) →
      (pool.map Prod.snd).sum ≤ U32 - 2 →
      ∃ ws, wrLoop gen fuel round pool = some ws ∧ ws.Perm (pool.map Prod.fst) := by
  have hU : (4 : Nat) ≤ U32 := by norm_num [U32]
  intro fuel
  induction fuel with
  | zero =>
    intro pool round hlen _ _
    rw [List.length_eq_zero.mp hlen]
    exact ⟨[], rfl, List.Perm.refl _⟩
  | succ n ih =>
    intro pool round hlen hw hsum
    have hne : pool ≠ [] := by
      intro h
      rw [h] at hlen
      cases hlen
    have hsum1 : 1 ≤ (pool.map Prod.snd).sum := by
      refine sum_ge_one (by simpa using hne) ?_
      intro w hw'
      obtain ⟨x, hx, rfl⟩ := List.mem_map.mp hw'
      exact hw x hx
    rw [wrLoop, if_neg (by simpa using hne)]
    dsimp only
    have hm1 : (pool.map Prod.snd).sum % U32 = (pool.map Prod.snd).sum :=
      Nat.mod_eq_of_lt (by omega)
    rw [hm1]
    have hm2 : ((pool.map Prod.snd).sum + 1) % U32 = (pool.map Prod.snd).sum + 1 :=
      Nat.mod_eq_of_lt (by omega)
    rw [hm2, if_neg (by omega : ¬ ((pool.map Prod.snd).sum + 1 ≤ 1))]
    obtain ⟨hg1, hg2⟩ := hgen round ((pool.map Prod.snd).sum) hsum1
    obtain ⟨i, hdi, hilt⟩ := drawIndex_lands pool _ hg1 hg2
    rw [hdi]
    dsimp only
    have hperm_erase : (swapRemove pool i).Perm (pool.eraseIdx i) := swapRemove_perm pool i hilt
    have hlen' : (swapRemove pool i).length = n := by
      rw [hperm_erase.length_eq, List.length_eraseIdx, if_pos hilt, hlen]
      omega
    have hw' : ∀ x ∈ swapRemove pool i, 1 ≤ x.2 := by
      intro x hx
      exact hw x ((List.eraseIdx_sublist pool i).subset (hperm_erase.mem_iff.mp hx))
    have hsum' : ((swapRemove pool i).map Prod.snd).sum ≤ U32 - 2 := by
      have h1 : ((swapRemove pool i).map Prod.snd).sum
          = ((pool.eraseIdx i).map Prod.snd).sum := (hperm_erase.map Prod.snd).sum_eq
      have h2 : ((pool.eraseIdx i).map Prod.snd).sum ≤ (pool.map Prod.snd).sum :=
        List.Sublist.sum_le_sum ((List.eraseIdx_sublist pool i).map Prod.snd)
          (fun a _ => Nat.zero_le a)
      omega
    obtain ⟨ws, hws, hwp⟩ := ih (swapRemove pool i) (round + 1) hlen' hw' hsum'
    rw [hws]
    refine ⟨(pool.getD i ("", 0)).1 :: ws, rfl, ?_⟩
    have hp1 : ws.Perm ((pool.eraseIdx i).map Prod.fst) :=
      hwp.trans (hperm_erase.map Prod.fst)
    have hp2 : (pool.map Prod.fst).Perm
        ((pool.getD i ("", 0)).1 :: (pool.eraseIdx i).map Prod.fst) := by
      have := (perm_getD_cons_eraseIdx ("", 0) pool i hilt).map Prod.fst
      simpa using this
    exact ((hp1.cons _).trans hp2.symm)

/-- C10 as stated is false: when the `u32` weights of the remaining pool
sum to a multiple of `2^32` the wrapped total is zero, the lottery builds
the empty `Uniform` range `1..1` and panics, so no output is produced even
though every weight is at least 1. -/
theorem c10_counterexample :
    (∀ x ∈ ([("A", 2 ^ 31), ("B", 2 ^ 31)] : WeightedUnrankedVote), 1 ≤ x.2)
    ∧ weighted_random [("A", 2 ^ 31), ("B", 2 ^ 31)] id (fun _ _ => 1) = none :=
  ⟨by decide, by decide⟩

/-- C10 amended: when every weight is at least 1 and the total weight is
at most `2^32 - 2`, the lottery terminates without indexing out of bounds
for every in-range draw sequence: it returns a ranking listing each
distinct input candidate exactly once with ranks 0, 1, ..., k-1 in output
order. -/
theorem c10_amended :
    ∀ (votes : WeightedUnrankedVote) (hs : List String → List String)
      (gen : Nat → Nat → Nat),
      (∀ l, (hs l).Perm l) →
      (∀ r s, 1 ≤ s → 1 ≤ gen r s ∧ gen r s ≤ s) →
      (∀ x ∈ votes, 1 ≤ x.2) →
      (votes.map Prod.snd).sum ≤ U32 - 2 →
      ∃ out, weighted_random votes hs gen = some out
        ∧ (out.map Prod.fst).Perm ((votes.map Prod.fst).dedup)
        ∧ out.map Prod.snd = List.range out.length := by
  intro votes hs gen hhs hgen hw hsum
  have hU : (4 : Nat) ≤ U32 := by norm_num [U32]
  have hkeysperm : (hs ((votes.map Prod.fst).dedup)).Perm ((votes.map Prod.fst).dedup) :=
    hhs _
  have htw : ∀ c ∈ hs ((votes.map Prod.fst).dedup),
      totalWeightMod votes c = ((votes.filter fun x => x.1 == c).map Prod.snd).sum
      ∧ 1 ≤ totalWeightMod votes c := by
    intro c hc
    have hcd : c ∈ (votes.map Prod.fst).dedup := hkeysperm.mem_iff.mp hc
    have hfsum : ((votes.filter fun x => x.1 == c).map Prod.snd).sum
        ≤ (votes.map Prod.snd).sum :=
      List.Sublist.sum_le_sum ((votes.filter_sublist).map Prod.snd)
        (fun a _ => Nat.zero_le a)
    have hmodeq : totalWeightMod votes c
        = ((votes.filter fun x => x.1 == c).map Prod.snd).sum := by
      rw [totalWeightMod]
      exact Nat.mod_eq_of_lt (by omega)
    refine ⟨hmodeq, ?_⟩
    rw [hmodeq]
    obtain ⟨x, hx, hxc⟩ := List.mem_map.mp (List.mem_dedup.mp hcd)
    have hxin : x ∈ votes.filter fun y => y.1 == c :=
      List.mem_filter.mpr ⟨hx, by simp [hxc]⟩
    refine sum_ge_one ?_ ?_
    · intro hcon
      rw [List.map_eq_nil_iff] at hcon
      rw [hcon] at hxin
      cases hxin
    · intro w hw'
      obtain ⟨y, hy, rfl⟩ := List.mem_map.mp hw'
      exact hw y (List.mem_of_mem_filter hy)
  set pool := consolidate_unranked_votes votes hs with hpool
  have hpoolnames : pool.map Prod.fst = hs ((votes.map Prod.fst).dedup) := by
    rw [hpool, consolidate_unranked_votes, List.map_map]
    exact List.map_id _
  have hpoolw : ∀ x ∈ pool, 1 ≤ x.2 := by
    intro x hx
    rw [hpool, consolidate_unranked_votes] at hx
    obtain ⟨c, hc, rfl⟩ := List.mem_map.mp hx
    exact (htw c hc).2
  have hpoolsum : (pool.map Prod.snd).sum ≤ U32 - 2 := by
    rw [hpool, consolidate_unranked_votes, List.map_map]
    have h1 : ((hs ((votes.map Prod.fst).dedup)).map
          (Prod.snd ∘ fun c => (c, totalWeightMod votes c))).sum
        = ((hs ((votes.map Prod.fst).dedup)).map
          (fun c => ((votes.filter fun x => x.1 == c).map Prod.snd).sum)).sum := by
      refine congrArg List.sum (List.map_congr_left ?_)
      intro c hc
      exact (htw c hc).1
    rw [h1]
    have h2 : ((hs ((votes.map Prod.fst).dedup)).map
          (fun c => ((votes.filter fun x => x.1 == c).map Prod.snd).sum)).sum
        = (((votes.map Prod.fst).dedup).map
          (fun c => ((votes.filter fun x => x.1 == c).map Prod.snd).sum)).sum :=
      (hkeysperm.map _).sum_eq
    rw [h2]
    exact le_trans (counts_sum_le _ votes (List.nodup_dedup _)) hsum
  obtain ⟨ws, hws, hwp⟩ := wrLoop_ok gen hgen pool.length pool 0 rfl hpoolw hpoolsum
  refine ⟨ws.enum.map fun p => (p.2, p.1), ?_, ?_, ?_⟩
  · rw [weighted_random]
    rw [← hpool, hws]
    rfl
  · have h1 : ((ws.enum.map fun p => (p.2, p.1)).map Prod.fst) = ws := by
      rw [List.map_map]
      exact List.enum_map_snd ws
    rw [h1]
    exact hwp.trans (hpoolnames ▸ hkeysperm)
  · have h2 : ((ws.enum.map fun p => (p.2, p.1)).map Prod.snd) = ws.enum.map Prod.fst := by
      rw [List.map_map]
      rfl
    rw [h2, List.enum_map_fst]
    congr 1
    rw [List.length_map, List.enum_length]

/-- Witness instantiating C10's amended statement on a two-candidate pool. -/
theorem c10_amended_witness :
    ∃ out, weighted_random [("A", 2), ("B", 1)] id (fun _ _ => 1) = some out
      ∧ (out.map Prod.fst).Perm ["A", "B"]
      ∧ out.map Prod.snd = List.range out.length := by
  have h := c10_amended [("A", 2), ("B", 1)] id (fun _ _ => 1)
    (fun l => List.Perm.refl l) (fun r s h1 => ⟨Nat.le_refl 1, h1⟩)
    (by decide) (by norm_num [U32])
  obtain ⟨out, h1, h2, h3⟩ := h
  exact ⟨out, h1, by simpa using h2, h3⟩

end Voter